import Mathlib

/-!
Verification of meshio's VTU codec (src/meshio/vtu/_vtu.py) against its
specification.  The Python module is shallowly embedded: machine integers
are Nat/Int with explicit reduction mod 256^w where the code serializes a
w-byte scalar, Python dicts are insertion-ordered association lists,
numpy fancy indexing / slicing follow Python semantics (negative wrap,
clamped slices), fallible code returns Except, and the Python base64 /
binascii pair is modelled including its stop-at-padding decoding
behaviour.  External collaborators that are not part of this repository's
staged source (the lookup tables and node-order permutations of
meshio/_common.py, the zlib/lzma byte compressors) are modelled from the
spec where a claim needs them; each such definition says so in its doc
comment.
-/

deriving instance DecidableEq for Except

namespace MeshioVtu

/-- Errors a Python run of the codec can surface: meshio's ReadError, a
ValueError, a KeyError from a dict lookup, an IndexError from an array
access, and the UnboundLocalError raised when a local name is read before
its first assignment. -/
inductive PyErr where
  | readError
  | valueError
  | keyError
  | indexError
  | typeError
  | unboundLocal
  deriving DecidableEq, Repr

/-- Python dict modelled as an insertion-ordered association list. -/
abbrev AList (α β : Type) := List (α × β)

/-- Python dict lookup d.get(k). -/
def aGet {α β : Type} [DecidableEq α] : AList α β → α → Option β
  | [], _ => none
  | (k', v) :: rest, k => if k' = k then some v else aGet rest k

/-- Python dict assignment d[k] = v: replaces the value in place when the key
exists, otherwise appends, preserving insertion order. -/
def aSet {α β : Type} [DecidableEq α] : AList α β → α → β → AList α β
  | [], k, v => [(k, v)]
  | (k', v') :: rest, k, v =>
      if k' = k then (k, v) :: rest else (k', v') :: aSet rest k v

/-- Python d.pop(k): the popped value when the key is present, and the dict
without that key. -/
def aPop {α β : Type} [DecidableEq α] : AList α β → α → Option β × AList α β
  | [], _ => (none, [])
  | (k', v) :: rest, k =>
      if k' = k then (some v, rest)
      else
        let r := aPop rest k
        (r.1, (k', v) :: r.2)

/-- Python and numpy scalar indexing of a one-dimensional array: a negative
index counts from the end, anything out of range raises IndexError. -/
def pyIndex (l : List Int) (i : Int) : Except PyErr Int :=
  let n : Int := l.length
  let j := if i < 0 then i + n else i
  if 0 ≤ j ∧ j < n then .ok (l.getD j.toNat 0) else .error .indexError

/-- Python slice l[a:b]: negative bounds count from the end, bounds are
clamped to the array. -/
def pySlice (l : List Int) (a b : Int) : List Int :=
  let n : Int := l.length
  let a' := if a < 0 then max 0 (a + n) else min a n
  let b' := if b < 0 then max 0 (b + n) else min b n
  (l.take b'.toNat).drop a'.toNat

/-- numpy fancy indexing l[idxs] (used for connectivity gathering and cell
data selection): each index resolved by pyIndex, any failure raises. -/
def pyFancy (l : List Int) (idxs : List Int) : Except PyErr (List Int) :=
  idxs.mapM (pyIndex l)

/-- Helper for npUnique: insert a value into an ascending list of distinct
values. -/
def sortedInsert (x : Int) : List Int → List Int
  | [] => [x]
  | y :: ys =>
      if x < y then x :: y :: ys
      else if x = y then y :: ys
      else y :: sortedInsert x ys

/-- numpy.unique: the distinct values of an array in ascending order. -/
def npUnique (l : List Int) : List Int := l.foldr sortedInsert []

/-- numpy.diff on a one-dimensional array: consecutive differences. -/
def npDiff (l : List Int) : List Int := (l.zip l.tail).map fun p => p.2 - p.1

/-- Inclusive running sums (numpy.cumsum). -/
def cumsum (acc : Nat) : List Nat → List Nat
  | [] => []
  | x :: xs => (acc + x) :: cumsum (acc + x) xs

/-- Source num_bytes_to_num_base64_chars (lines 29-32): rounding up in
integer division works by double negation since Python floor-divides. -/
def num_bytes_to_num_base64_chars (num_bytes : Int) : Int :=
  -((-num_bytes).fdiv 3) * 4

/-- A character of a base64 text: one of the 64 alphabet characters, carrying
its 6-bit value, or the padding character. -/
inductive B64 where
  | ch (v : Nat)
  | pad
  deriving DecidableEq, Repr

/-- Python base64.b64encode of a byte string: bytes chunked in threes,
standard padding on a short final chunk. -/
def b64encode : List Nat → List B64
  | [] => []
  | [a] => [.ch (a / 4), .ch (a % 4 * 16), .pad, .pad]
  | [a, b] => [.ch (a / 4), .ch (a % 4 * 16 + b / 16), .ch (b % 16 * 4), .pad]
  | a :: b :: c :: rest =>
      .ch (a / 4) :: .ch (a % 4 * 16 + b / 16) :: .ch (b % 16 * 4 + c / 64) ::
        .ch (c % 64) :: b64encode rest

/-- Python base64.b64decode (binascii.a2b_base64): decodes four-character
quanta and stops at the first padded quantum, ignoring anything that
follows it; incomplete trailing input yields nothing (never exercised by
the embedded code paths, which only decode well-formed texts). -/
def b64decode : List B64 → List Nat
  | .ch v1 :: .ch v2 :: .pad :: _ => [v1 * 4 + v2 / 16]
  | .ch v1 :: .ch v2 :: .ch v3 :: .pad :: _ =>
      [v1 * 4 + v2 / 16, v2 % 16 * 16 + v3 / 4]
  | .ch v1 :: .ch v2 :: .ch v3 :: .ch v4 :: rest =>
      (v1 * 4 + v2 / 16) :: (v2 % 16 * 16 + v3 / 4) :: (v3 % 4 * 64 + v4) ::
        b64decode rest
  | _ => []

/-- Little-endian byte rendering of one w-byte unsigned scalar
(numpy tobytes): the value is reduced mod 256^w. -/
def toLE (w : Nat) (n : Nat) : List Nat :=
  match w with
  | 0 => []
  | w' + 1 => n % 256 :: toLE w' (n / 256)

/-- Value of a little-endian byte string (numpy frombuffer of one scalar;
an empty buffer reads as 0). -/
def fromLE : List Nat → Nat
  | [] => 0
  | b :: rest => b + 256 * fromLE rest

/-- Byte string of a whole unsigned array: each value rendered in w bytes,
little-endian (numpy ndarray.tobytes). -/
def arrToBytes (w : Nat) (vals : List Nat) : List Nat :=
  (vals.map (toLE w)).flatten

/-- Cut a byte string into w-byte little-endian scalars (the value part of
numpy.frombuffer); callers check divisibility separately. -/
def leChunks (w : Nat) (bytes : List Nat) : List Nat :=
  if _h : w = 0 ∨ bytes = [] then []
  else fromLE (bytes.take w) :: leChunks w (bytes.drop w)
termination_by bytes.length
decreasing_by
  simp only [not_or] at _h
  have h1 : 0 < w := Nat.pos_of_ne_zero _h.1
  have h2 : bytes ≠ [] := _h.2
  have : 0 < bytes.length := List.length_pos.mpr h2
  simpa using Nat.sub_lt this h1

/-- numpy.frombuffer with a w-byte dtype: rejects a buffer whose size is not
a multiple of the item size. -/
def fromBuffer (w : Nat) (bytes : List Nat) : Except PyErr (List Nat) :=
  if w = 0 then .error .valueError
  else if bytes.length % w ≠ 0 then .error .valueError
  else .ok (leChunks w bytes)

/-! ### Type tables

The scalar-kind table numpy_to_vtu_type/vtu_to_numpy_type is in the staged
source (lines 333-345); here only the item sizes matter.  The cell-code and
node-count tables and the node-order permutations live in meshio/_common.py,
which is not part of the staged source, so they are modelled from the spec. -/

/-- Byte widths of the ten scalar kinds of vtu_to_numpy_type (lines 333-344). -/
def vtu_type_width : AList String Nat :=
  [("Float32", 4), ("Float64", 8), ("Int8", 1), ("Int16", 2), ("Int32", 4),
   ("Int64", 8), ("UInt8", 1), ("UInt16", 2), ("UInt32", 4), ("UInt64", 8)]

/-- Modelled from the spec: the externally supplied bidirectional map
"format cell-type code ↔ generic cell-shape name" (meshio/_common.py is not
in the staged source).  The codes are the published VTK codes of the shapes
the claims exercise. -/
def vtk_to_meshio_type : AList Int String :=
  [(1, "vertex"), (3, "line"), (5, "triangle"), (9, "quad"), (10, "tetra"),
   (12, "hexahedron"), (7, "polygon"), (42, "polyhedron")]

/-- Modelled from the spec: the inverse direction of the same external map. -/
def meshio_to_vtk_type : AList String Int :=
  [("vertex", 1), ("line", 3), ("triangle", 5), ("quad", 9), ("tetra", 10),
   ("hexahedron", 12), ("polygon", 7), ("polyhedron", 42)]

/-- Modelled from the spec: nodes per fixed shape (num_nodes_per_cell of
meshio/_common.py, not in the staged source). -/
def num_nodes_per_cell : AList String Nat :=
  [("vertex", 1), ("line", 2), ("triangle", 3), ("quad", 4), ("tetra", 4),
   ("hexahedron", 8)]

/-- Modelled from the spec: node_order "returns a permutation of
[0..node_count) ...; identity for shapes with no documented reordering";
none of the shapes in the tables above documents a reordering, so the
permutation is the identity arange(node_count) for all of them. -/
def _vtk_to_meshio_order (_code : Int) (n : Nat) : List Int :=
  (List.range n).map (fun j => (j : Int))

/-- Modelled from the spec: the inverse permutation used by the writer; the
identity as well. -/
def _meshio_to_vtk_order (_cell_type : String) (n : Nat) : List Int :=
  (List.range n).map (fun j => (j : Int))

/-- A type code whose shape has a fixed node count: it resolves in the
cell-type table to a name other than polygon / polyhedron that the
node-count table covers. -/
def isFixedCode (t : Int) : Bool :=
  match aGet vtk_to_meshio_type t with
  | some n => n ≠ "polygon" && n ≠ "polyhedron" && (aGet num_nodes_per_cell n).isSome
  | none => false

/-! ### The cell reorganizer: _cells_from_data (lines 35-199) -/

/-- The shared CellBlock container: a shape tag and the 2D index array. -/
structure CellBlock where
  type : String
  data : List (List Int)
  deriving DecidableEq, Repr

/-- A polyhedron face-cell relation: one item per cell, each a list of faces,
each face a list of node indices. -/
abbrev Faces := List (List (List Int))

/-- Shortcut instance so the derived equality deciders below synthesize. -/
instance decEqOptFaces : DecidableEq (Option Faces) := inferInstance

/-- Shortcut instance so the derived equality deciders below synthesize. -/
instance decEqPolyEntry : DecidableEq (String × Option Faces) := inferInstance

/-- Shortcut instance so the derived equality deciders below synthesize. -/
instance decEqPolyMap : DecidableEq (AList String (Option Faces)) := inferInstance

/-- Shortcut instance so the derived equality deciders below synthesize. -/
instance decEqOptPolyMap : DecidableEq (Option (AList String (Option Faces))) :=
  inferInstance

/-- The cell_data dict built by _cells_from_data, with the reserved
"polyhedron:faces_of_cells" entry carried apart from the ordinary names (no
file may use the reserved name for plain data, per the source's lines 77-84
such files have unspecified behaviour): ordinary names map to one slice per
emitted block, the reserved entry maps block tags to face lists (None for
the padded non-polyhedron blocks). -/
structure CellsOut where
  cells : List CellBlock
  cellData : AList String (List (List Int))
  polyFaces : Option (AList String (Option Faces))
  deriving DecidableEq, Repr

/-- Shortcut instance so concrete evaluations of _organize_cells decide. -/
instance decEqCellDataMap : DecidableEq (AList String (List (List Int))) :=
  inferInstance

/-- Shortcut instance so concrete evaluations of _organize_cells decide. -/
instance decEqOrganized :
    DecidableEq (List CellBlock ×
      (AList String (List (List Int)) × Option (AList String (Option Faces)))) :=
  inferInstance

/-- Lines 42-44: run boundaries
b = concatenate([[0], where(types[:-1] != types[1:])[0] + 1, [len(types)]]). -/
def runBoundaries (types : List Int) : List Nat :=
  0 :: (((List.range (types.length - 1)).filter
      (fun i => types.getD i 0 ≠ types.getD (i + 1) 0)).map (· + 1) ++ [types.length])

/-- Line 52: the (start, end) pairs zip(b[:-1], b[1:]). -/
def runPairs (types : List Int) : List (Nat × Nat) :=
  (runBoundaries types).zip (runBoundaries types).tail

/-- Lines 118-131: the inner face loop; k faces remain, reading at position
next_face: each face is its node count followed by that many node indices,
taken as a (clamped) slice, advancing by the node count plus one. -/
def readFaces (faces : List Int) : Nat → Int → Except PyErr (List (List Int))
  | 0, _ => .ok []
  | k + 1, next_face => do
      let num_nodes ← pyIndex faces next_face
      let face := pySlice faces (next_face + 1) (next_face + num_nodes + 1)
      let rest ← readFaces faces k (next_face + num_nodes + 1)
      .ok (face :: rest)

/-- Lines 114-131: one cell of the outer loop: its face count read at the
cell's start offset, then that many faces. -/
def parse_cell_faces (faces : List Int) (cell_start : Int) :
    Except PyErr (List (List Int)) := do
  let num_faces ← pyIndex faces cell_start
  readFaces faces num_faces.toNat (cell_start + 1)

/-- Lines 133-137: the number of distinct node indices across all of one
cell's faces; numpy.hstack raises on an empty array list. -/
def cellDistinctNodes (faces_this_cell : List (List Int)) : Except PyErr Nat :=
  if faces_this_cell = [] then .error .valueError
  else .ok (npUnique faces_this_cell.flatten).length

/-- Lines 110-141: the double loop over cells then faces, bucketing each
cell's face list under its distinct-node count, first-occurrence order. -/
def build_faces_of_cells (faces : List Int) (faceoffsets : List Int) :
    Except PyErr (AList Nat Faces) :=
  faceoffsets.foldlM
    (fun acc cell_start => do
      let fc ← parse_cell_faces faces cell_start
      let nn ← cellDistinctNodes fc
      .ok (aSet acc nn (((aGet acc nn).getD []) ++ [fc])))
    []

/-- Lines 144-148: the published face-cell relation, keyed by
"polyhedron" + distinct-node count. -/
def polyFacesEntry (fo : AList Nat Faces) : AList String (Option Faces) :=
  fo.map (fun p => ("polyhedron" ++ toString p.1, some p.2))

/-- Line 175-178 and 187-190 share this dict update: append one block's
slice to a name's list, creating the list on first sight. -/
def appendCellData (cd : AList String (List (List Int))) (name : String)
    (piece : List Int) : AList String (List (List Int)) :=
  aSet cd name (((aGet cd name).getD []) ++ [piece])

/-- The loop state of _cells_from_data: the function-level locals that
survive from one run of the type loop to the next.  facesLoc and
faceoffsetsLoc mirror the Python locals faces / faceoffsets (None while
unassigned), foundBefore mirrors found_faces_before, which is only ever
assigned True (line 93); reading it before that assignment is an
UnboundLocalError. -/
structure RunState where
  cells : List CellBlock
  cellData : AList String (List (List Int))
  polyFaces : Option (AList String (Option Faces))
  hasPolyhedron : Bool
  cdr : AList String (List Int)
  facesLoc : Option (List Int)
  faceoffsetsLoc : Option (List Int)
  foundBefore : Bool
  deriving DecidableEq, Repr

/-- Lines 85-104: pop faces/faceoffsets from the raw cell data; on a
KeyError fall back to the stale locals of a previous polyhedron run, or
crash with UnboundLocalError when there was none.  Returns the faces and
(start-converted, line 91) faceoffsets to use plus the updated state. -/
def popFaces (st : RunState) : Except PyErr (List Int × List Int × RunState) :=
  match aPop st.cdr "faces" with
  | (none, _) =>
      if st.foundBefore then
        match st.facesLoc, st.faceoffsetsLoc with
        | some fcs, some fo => .ok (fcs, fo, st)
        | _, _ => .error .unboundLocal
      else .error .unboundLocal
  | (some fcs, cdr1) =>
      match aPop cdr1 "faceoffsets" with
      | (none, cdr2) =>
          if st.foundBefore then
            match st.faceoffsetsLoc with
            | some fo =>
                let st1 := { st with cdr := cdr2, facesLoc := some fcs }
                .ok (fcs, fo, st1)
            | none => .error .unboundLocal
          else .error .unboundLocal
      | (some fos, cdr2) =>
          let fo := 0 :: fos.dropLast
          let st1 := { st with cdr := cdr2, facesLoc := some fcs,
                               faceoffsetsLoc := some fo, foundBefore := true }
          .ok (fcs, fo, st1)

/-- Lines 150-178: the variable-node-count part shared by polygon and
polyhedron runs: per-cell start offsets, sizes by offset difference, one
block (sizes ascending by numpy.unique) per distinct size, with the raw
cell data fancy-indexed per sub-group. -/
def processVarRun (connectivity offsets : List Int) (tcode : Int)
    (meshio_type : String) (start end_ : Nat) (st : RunState) :
    Except PyErr RunState := do
  let first_node : Int ←
    if start = 0 then Except.ok 0
    else pyIndex offsets ((start : Int) - 1)
  let offs := (offsets.drop start).take (end_ - start)
  let start_cn := first_node :: offs
  let size := npDiff start_cn
  (npUnique size).foldlM
    (fun st sz => do
      let sel := (offs.zip size).filter (fun p => p.2 = sz)
      let rows ← sel.mapM (fun p =>
        ((_vtk_to_meshio_order tcode sz.toNat).map (fun j => p.1 + j - sz)).mapM
          (pyIndex connectivity))
      let blk := CellBlock.mk (meshio_type ++ toString sz) rows
      let idxs := (((List.range size.length).zip size).filter
          (fun p => p.2 = sz)).map (fun p => ((start + p.1 : Nat) : Int))
      let cd ← st.cdr.foldlM
        (fun cd nd => do
          let piece ← pyFancy nd.2 idxs
          Except.ok (appendCellData cd nd.1 piece))
        st.cellData
      Except.ok { st with cells := st.cells ++ [blk], cellData := cd })
    st

/-- Lines 179-190: a fixed-node-count run: one block, nodes gathered at
offset minus node count (plus node-order permutation), raw cell data sliced
by the run bounds. -/
def processFixedRun (connectivity offsets : List Int) (tcode : Int)
    (meshio_type : String) (start end_ : Nat) (st : RunState) :
    Except PyErr RunState := do
  match aGet num_nodes_per_cell meshio_type with
  | none => .error .keyError
  | some n => do
      let offs := (offsets.drop start).take (end_ - start)
      let rows ← offs.mapM (fun o =>
        ((_vtk_to_meshio_order tcode n).map (fun j => o + j - (n : Int))).mapM
          (pyIndex connectivity))
      let blk := CellBlock.mk meshio_type rows
      let cd := st.cdr.foldl
        (fun cd nd => appendCellData cd nd.1 ((nd.2.drop start).take (end_ - start)))
        st.cellData
      Except.ok { st with cells := st.cells ++ [blk], cellData := cd }

/-- Lines 52-190: one iteration of the loop over (start, end) runs. -/
def processRun (connectivity offsets types : List Int) (st : RunState)
    (se : Nat × Nat) : Except PyErr RunState := do
  let tcode ← pyIndex types se.1
  match aGet vtk_to_meshio_type tcode with
  | none => .error .readError
  | some meshio_type =>
      if meshio_type = "polygon" ∨ meshio_type = "polyhedron" then do
        let st ←
          if meshio_type = "polyhedron" then do
            let (fcs, fo, st1) ← popFaces st
            let fobuckets ← build_faces_of_cells fcs fo
            let st2 := { st1 with hasPolyhedron := true,
                                  polyFaces := some (polyFacesEntry fobuckets) }
            Except.ok st2
          else Except.ok st
        processVarRun connectivity offsets tcode meshio_type se.1 se.2 st
      else processFixedRun connectivity offsets tcode meshio_type se.1 se.2 st

/-- Lines 192-197: when polyhedra were discovered, pad the reserved entry
with an explicit None for every block whose tag does not start with
"polyhedron". -/
def padPolyFaces (cells : List CellBlock) (m : AList String (Option Faces)) :
    AList String (Option Faces) :=
  cells.foldl
    (fun m cls =>
      if cls.type.data.take 10 ≠ "polyhedron".data then aSet m cls.type none else m)
    m

/-- Source _cells_from_data (lines 35-199): translate one piece's flat
connectivity / offsets / types arrays plus its raw cell data into cell
blocks and per-block cell data. -/
def _cells_from_data (connectivity offsets types : List Int)
    (cell_data_raw : AList String (List Int)) : Except PyErr CellsOut := do
  if offsets.length ≠ types.length then .error .readError
  else do
    let init : RunState :=
      ⟨[], [], none, false, cell_data_raw, none, none, false⟩
    let st ← (runPairs types).foldlM (processRun connectivity offsets types) init
    if st.hasPolyhedron then
      match st.polyFaces with
      | some m => .ok ⟨st.cells, st.cellData, some (padPolyFaces st.cells m)⟩
      | none => .error .keyError
    else .ok ⟨st.cells, st.cellData, st.polyFaces⟩

/-! ### Merging pieces: _organize_cells (lines 202-226) -/

/-- The per-piece flat cell arrays handed over by the reader. -/
structure PieceCells where
  connectivity : List Int
  offsets : List Int
  types : List Int
  faces : Option (List Int)
  faceoffsets : Option (List Int)
  deriving DecidableEq, Repr

/-- Line 224: shift one block's connectivity by the piece's point offset. -/
def shiftBlock (offset : Int) (c : CellBlock) : CellBlock :=
  ⟨c.type, c.data.map (fun row => row.map (· + offset))⟩

/-- Source _organize_cells (lines 202-226).  The loop rebinds cell_data on
every piece, so only the final piece's cell data survives; with zero pieces
the unassigned local raises UnboundLocalError. -/
def _organize_cells (point_offsets : List Int) (cells : List PieceCells)
    (cell_data_raw : List (AList String (List Int))) :
    Except PyErr (List CellBlock ×
      (AList String (List (List Int)) × Option (AList String (Option Faces)))) := do
  if point_offsets.length ≠ cells.length then .error .readError
  else do
    let triples := (point_offsets.zip cells).zip cell_data_raw
    let res ← triples.foldlM
      (fun (acc : List CellBlock ×
            Option (AList String (List (List Int)) × Option (AList String (Option Faces)))) t => do
        let cls0 := t.1.2
        let cdr0 := t.2
        let cdr :=
          match cls0.faces, cls0.faceoffsets with
          | some f, some fo => aSet (aSet cdr0 "faces" f) "faceoffsets" fo
          | _, _ => cdr0
        let out ← _cells_from_data cls0.connectivity cls0.offsets cls0.types cdr
        Except.ok (acc.1 ++ out.cells.map (shiftBlock t.1.1),
          some (out.cellData, out.polyFaces)))
      ([], none)
    match res.2 with
    | some cd => .ok (res.1, cd)
    | none => .error .unboundLocal

/-! ### VtuReader binary decoding (lines 501-579) -/

/-- Source VtuReader.read_uncompressed_binary (lines 501-527) for a
little-endian document (the writer's own declaration on the platforms at
issue): decode the base64 text, read the total byte count from the first
header-width bytes; when the decode stopped right after the header (the
header was padded into its own segment), recompute the header's base64
length, slice there and decode the remainder separately; the returned
array is represented by its payload bytes (frombuffer reinterprets bytes,
it does not change them). -/
def read_uncompressed_binary (data : List B64) (header_width : Nat) : List Nat :=
  let byte_string := b64decode data
  let total_num_bytes := fromLE (byte_string.take header_width)
  let byte_string2 :=
    if byte_string.length = header_width then
      b64decode (data.drop (b64encode byte_string).length)
    else byte_string.drop header_width
  byte_string2.take total_num_bytes

/-- Source VtuReader.read_compressed_binary (lines 529-579): decode just
enough characters for the block count, then for the whole header, then the
body; slice the body at the cumulative compressed block sizes (computed in
the header kind, hence mod 256^width), decompress each block and
concatenate the decoded values.  numpy raises IndexError when the loop
overruns the offsets and ValueError on concatenating zero blocks. -/
def read_compressed_binary (data : List B64) (header_width : Nat) (w : Nat)
    (decompress : List Nat → List Nat) : Except PyErr (List Nat) := do
  let num_chars := (num_bytes_to_num_base64_chars header_width).toNat
  let byte_string := (b64decode (data.take num_chars)).take header_width
  let num_blocks := fromLE byte_string
  let num_header_items := 3 + num_blocks
  let num_header_bytes := header_width * num_header_items
  let num_header_chars := (num_bytes_to_num_base64_chars (num_header_bytes : Int)).toNat
  let header ← fromBuffer header_width (b64decode (data.take num_header_chars))
  let block_sizes := header.drop 3
  let byte_array := b64decode (data.drop num_header_chars)
  let byte_offsets := 0 :: (cumsum 0 block_sizes).map (· % 256 ^ header_width)
  if block_sizes.length < num_blocks then .error .indexError
  else if num_blocks = 0 then .error .valueError
  else do
    let parts ← (List.range num_blocks).mapM (fun k => do
      let lo := byte_offsets.getD k 0
      let hi := byte_offsets.getD (k + 1) 0
      fromBuffer w (decompress ((byte_array.take hi).drop lo)))
    .ok parts.flatten

/-! ### Writer: header_type handling (lines 652-662 with 727-743) -/

/-- Lines 660-662: the conditional expression binds the local header_type to
either "UInt32" or the return value of vtk_file.set(...), and Python's
Element.set returns None.  The pair is (the root's header_type attribute,
the local header_type after the assignment). -/
def writeHeaderTypeState (header_type : Option String) :
    Option String × Option String :=
  match header_type with
  | none => (none, some "UInt32")
  | some ht => (some ht, none)

/-- Lines 730 and 741: both binary text writers resolve
vtu_to_numpy_type[header_type] on that local; subscripting the table with
Python None (or any unknown name) raises KeyError. -/
def headerDtypeWidth (header_type_local : Option String) : Except PyErr Nat :=
  match header_type_local with
  | none => .error .keyError
  | some s =>
      match aGet vtu_type_width s with
      | some w => .ok w
      | none => .error .keyError

/-! ### Writer: frame effects on the caller's mesh (lines 634-693, 881-883) -/

/-- An array as the frame-effect claim sees it: its shape and whether its
dtype carries the platform-native byte order; astype(newbyteorder("="))
flips nativeOrder and changes nothing else the claim mentions. -/
structure NArr where
  rows : Nat
  cols : Nat
  nativeOrder : Bool
  deriving DecidableEq, Repr

/-- The astype(dtype.newbyteorder("=")) recast of lines 681-693. -/
def astypeNative (a : NArr) : NArr := { a with nativeOrder := true }

/-- The caller's mesh as the writer's in-place mutations see it.  cell_data
values are each name's per-block array list; the reserved
"polyhedron:faces_of_cells" entry, when present, is carried under its key
like any other (only its presence matters to the claim). -/
structure MeshState where
  points : NArr
  cells : List (String × NArr)
  point_data : AList String NArr
  cell_data : AList String (List NArr)
  field_data : AList String NArr
  deriving DecidableEq, Repr

/-- Mutations write performs on the caller's mesh object: lines 643-650
assign the 2D-promoted points back to mesh.points (column_stack builds a
fresh native-order 3-column array); line 676 pops the reserved face-list
entry; line 681 binds the recast points to a LOCAL, leaving mesh.points
alone; lines 682-693 write the recast cell blocks, point data, cell data
and field data back into the mesh; lines 881-883 restore the reserved
entry when one was popped.  Serialisation itself reads the locals only. -/
def writeFrame (mesh : MeshState) : MeshState :=
  let mesh :=
    if mesh.points.cols = 2 then
      { mesh with points := ⟨mesh.points.rows, 3, true⟩ }
    else mesh
  let popped := aPop mesh.cell_data "polyhedron:faces_of_cells"
  let mesh := { mesh with cell_data := popped.2 }
  let mesh := { mesh with
    cells := mesh.cells.map (fun (p : String × NArr) => (p.1, astypeNative p.2)) }
  let mesh := { mesh with
    point_data :=
      mesh.point_data.map (fun (p : String × NArr) => (p.1, astypeNative p.2)) }
  let mesh := { mesh with
    cell_data :=
      mesh.cell_data.map (fun (p : String × List NArr) => (p.1, p.2.map astypeNative)) }
  let mesh := { mesh with
    field_data :=
      mesh.field_data.map (fun (p : String × NArr) => (p.1, astypeNative p.2)) }
  match popped.1 with
  | some v =>
      { mesh with cell_data := aSet mesh.cell_data "polyhedron:faces_of_cells" v }
  | none => mesh

/-! ### Writer binary encoders (numpy_to_xml_array, lines 695-759) -/

/-- Two's-complement little-endian bytes of one signed scalar in a w-byte
kind: reduce into the canonical residue mod 256^w, then render. -/
def intToLE (w : Nat) (v : Int) : List Nat := toLE w (v % (256 ^ w : Nat)).toNat

/-- Byte string of an array of scalars (ndarray.tobytes, row-major). -/
def arrToBytesI (w : Nat) (vals : List Int) : List Nat :=
  (vals.map (intToLE w)).flatten

/-- Source _chunk_it (lines 627-631): successive n-element slices. -/
def _chunk_it (n : Nat) (array : List Nat) : List (List Nat) :=
  if _h : n = 0 ∨ array = [] then []
  else array.take n :: _chunk_it n (array.drop n)
termination_by array.length
decreasing_by
  simp only [not_or] at _h
  have h1 : 0 < n := Nat.pos_of_ne_zero _h.1
  have : 0 < array.length := List.length_pos.mpr _h.2
  simpa using Nat.sub_lt this h1

/-- Lines 737-743: uncompressed binary text: the header is the payload's
byte length in the header kind, and header bytes ++ payload bytes are
base64-encoded as one run. -/
def write_uncompressed_binary (header_width : Nat) (data_bytes : List Nat) :
    List B64 :=
  b64encode (toLE header_width data_bytes.length ++ data_bytes)

/-- Lines 705-733: compressed binary text: 32768-byte blocks, each
compressed independently; the header [num_blocks, max_block_size,
last_block_size, per-block compressed sizes...] is rendered in the header
kind; header and body are base64-encoded as two separate runs written back
to back. -/
def write_compressed_binary (header_width : Nat)
    (compress : List Nat → List Nat) (data_bytes : List Nat) : List B64 :=
  let max_block_size : Nat := 32768
  let num_blocks : Int := -((-(data_bytes.length : Int)).fdiv max_block_size)
  let last_block_size : Int :=
    (data_bytes.length : Int) - (num_blocks - 1) * (max_block_size : Int)
  let compressed_blocks := (_chunk_it max_block_size data_bytes).map compress
  let header : List Int :=
    [num_blocks, (max_block_size : Int), last_block_size] ++
      compressed_blocks.map (fun b => (b.length : Int))
  b64encode (arrToBytesI header_width header) ++
    b64encode compressed_blocks.flatten

/-! ### Document-level model of write then read (the round-trip claim)

The XML tree is written and parsed by ElementTree on both sides and is
transparent here: the document is its attribute values and DataArray
descriptors.  Scalar kinds are a byte width plus a float flag; array
values are signed scalars serialized in two's complement.  The ascii
payload is the token list itself, which renders Python's exact decimal
read-back of integer tokens; the lossy 11-significant-digit float format
of line 697 is not modelled, and the ascii statements below exclude float
arrays through the isFloat flag. -/

/-- One in-memory array: scalar kind and flat values. -/
structure Arr where
  width : Nat
  isFloat : Bool
  vals : List Int
  deriving DecidableEq, Repr

/-- One cell block handed to write: meshio tag, the column count of its 2D
index array, and its rows. -/
structure MBlock where
  type : String
  cols : Nat
  data : List (List Int)
  deriving DecidableEq, Repr

/-- One name's cell data: the scalar kind its per-block arrays share and
one flat array per block, in block order. -/
structure CArr where
  width : Nat
  isFloat : Bool
  blocks : List (List Int)
  deriving DecidableEq, Repr

/-- The in-memory mesh the round-trip claim quantifies over, without the
reserved face-list entry (write pops it to None for such meshes). -/
structure MeshM where
  points : Arr
  cells : List MBlock
  point_data : AList String Arr
  cell_data : AList String CArr
  deriving DecidableEq, Repr

/-- The text content of one serialized DataArray. -/
inductive Payload where
  | asciiP (vals : List Int)
  | binP (chars : List B64)
  deriving DecidableEq, Repr

/-- A serialized DataArray descriptor: scalar kind, optional
NumberOfComponents, payload. -/
structure DArray where
  width : Nat
  isFloat : Bool
  comps : Option Nat
  payload : Payload
  deriving DecidableEq, Repr

/-- The write configurations of the round-trip claim; the zlib and lzma
codecs of the Python standard library live outside this repository and
enter as an abstract compress/decompress pair. -/
inductive Config where
  | asciiC : Config
  | binU : Config
  | binC : (List Nat → List Nat) → Config

/-- The document write produces: the root attributes the reader consults
plus the one piece's descriptors. -/
structure Doc where
  headerWidth : Nat
  compressed : Bool
  numPoints : Nat
  numCells : Nat
  points : DArray
  connectivity : DArray
  offsets : DArray
  types : DArray
  point_data : AList String DArray
  cell_data : AList String DArray

/-- numpy_to_xml_array (lines 695-759) under the model: ascii emits the
values, binary emits the base64 text of the chosen codec over the array's
bytes. -/
def writeArr (cfg : Config) (hw : Nat) (width : Nat) (isFloat : Bool)
    (comps : Option Nat) (vals : List Int) : DArray :=
  match cfg with
  | .asciiC => ⟨width, isFloat, comps, .asciiP vals⟩
  | .binU =>
      ⟨width, isFloat, comps,
        .binP (write_uncompressed_binary hw (arrToBytesI width vals))⟩
  | .binC compress =>
      ⟨width, isFloat, comps,
        .binP (write_compressed_binary hw compress (arrToBytesI width vals))⟩

/-- Lines 814-819: flatten connectivity in block order, rows gathered under
the (identity) meshio-to-vtk node order. -/
def write_connectivity (cells : List MBlock) : List Int :=
  (cells.map (fun b => b.data.flatten)).flatten

/-- Lines 821-829: per-block offsets cols * (1..rows), each block shifted by
the previous block's last offset, i.e. the running connectivity total. -/
def write_offsets (base : Nat) : List MBlock → List Int
  | [] => []
  | b :: rest =>
      (List.range b.data.length).map
          (fun i => ((base + b.cols * (i + 1) : Nat) : Int)) ++
        write_offsets (base + b.cols * b.data.length) rest

/-- Lines 836-860: one type code per cell of each block; polygon and
polyhedron tags are stripped to their prefixes before the code lookup.  A
polyhedron tag makes line 846 subscript the popped faces_of_cells, which is
None for the meshes modelled here, a TypeError. -/
def write_types (cells : List MBlock) : Except PyErr (List Int) := do
  let ls ← cells.mapM (fun b => do
    let key ←
      if b.type.data.take 7 = "polygon".data then Except.ok "polygon"
      else if b.type.data.take 10 = "polyhedron".data then Except.error PyErr.typeError
      else Except.ok b.type
    match aGet meshio_to_vtk_type key with
    | some code => Except.ok (List.replicate b.data.length code)
    | none => .error .keyError)
  .ok ls.flatten

/-- Modelled from the spec: raw_from_cell_data of meshio/_common.py (not in
the staged source) merges each name's ordered per-block arrays into one
flat array, in block order. -/
def raw_from_cell_data (cd : AList String CArr) :
    AList String (Nat × Bool × List Int) :=
  cd.map (fun p => (p.1, (p.2.width, p.2.isFloat, p.2.blocks.flatten)))

/-- Source write (lines 634-887) at the document level for meshes without
the reserved face-list entry. -/
def writeDoc (cfg : Config) (hw : Nat) (mesh : MeshM) : Except PyErr Doc := do
  let conn := write_connectivity mesh.cells
  let offsets := write_offsets 0 mesh.cells
  let types ← write_types mesh.cells
  let isCompressed := match cfg with | .binC _ => true | _ => false
  .ok {
    headerWidth := hw
    compressed := isCompressed
    numPoints := mesh.points.vals.length / 3
    numCells := (mesh.cells.map (fun b => b.data.length)).sum
    points := writeArr cfg hw mesh.points.width mesh.points.isFloat (some 3)
      mesh.points.vals
    connectivity := writeArr cfg hw 8 false none conn
    offsets := writeArr cfg hw 8 false none offsets
    types := writeArr cfg hw 8 false none types
    point_data := mesh.point_data.map
      (fun p => (p.1, writeArr cfg hw p.2.width p.2.isFloat none p.2.vals))
    cell_data := (raw_from_cell_data mesh.cell_data).map
      (fun p => (p.1, writeArr cfg hw p.2.1 p.2.2.1 none p.2.2.2))
  }

/-- read_data (lines 581-613) under the model: ascii takes the tokens,
binary dispatches on the document's compressor attribute; decoded scalars
are the unsigned values of the payload bytes. -/
def read_data (compressed : Bool) (hw : Nat) (decompress : List Nat → List Nat)
    (da : DArray) : Except PyErr (List Int) :=
  match da.payload with
  | .asciiP vals => .ok vals
  | .binP chars =>
      if compressed then do
        let ns ← read_compressed_binary chars hw da.width decompress
        .ok (ns.map (fun n => (n : Int)))
      else do
        let ns ← fromBuffer da.width (read_uncompressed_binary chars hw)
        .ok (ns.map (fun n => (n : Int)))

/-- What read returns, before meshio's Mesh constructor: merged points,
cell blocks, point data, per-name per-block cell data (with the document's
scalar kinds), and the reserved face-list entry when present. -/
structure ReadMesh where
  points : Arr
  cells : List CellBlock
  point_data : AList String Arr
  cell_data : AList String CArr
  polyFaces : Option (AList String (Option Faces))
  deriving DecidableEq, Repr

/-- VtuReader plus read (lines 354-624) on a single-piece document of the
shape write produces: decode every array, check the declared point and cell
counts against the decoded lengths, reorganize the cells, reassemble. -/
def readDoc (decompress : List Nat → List Nat) (doc : Doc) :
    Except PyErr ReadMesh := do
  let ptsVals ← read_data doc.compressed doc.headerWidth decompress doc.points
  if ptsVals.length ≠ doc.numPoints * 3 then .error .valueError
  else do
  let conn ← read_data doc.compressed doc.headerWidth decompress doc.connectivity
  let offsets ← read_data doc.compressed doc.headerWidth decompress doc.offsets
  let types ← read_data doc.compressed doc.headerWidth decompress doc.types
  if offsets.length ≠ doc.numCells then .error .readError
  else if types.length ≠ doc.numCells then .error .readError
  else do
  let pd ← doc.point_data.mapM (fun p => do
    let v ← read_data doc.compressed doc.headerWidth decompress p.2
    Except.ok (p.1, Arr.mk p.2.width p.2.isFloat v))
  let cdr ← doc.cell_data.mapM (fun p => do
    let v ← read_data doc.compressed doc.headerWidth decompress p.2
    Except.ok (p.1, v))
  let merged ← _organize_cells [0] [⟨conn, offsets, types, none, none⟩] [cdr]
  let cd := merged.2.1.map (fun p =>
    let da := (aGet doc.cell_data p.1).getD ⟨8, false, none, .asciiP []⟩
    (p.1, CArr.mk da.width da.isFloat p.2))
  .ok ⟨⟨doc.points.width, doc.points.isFloat, ptsVals⟩, merged.1, pd, cd, merged.2.2⟩

/-- The read-back image of an in-memory mesh, for stating the round trip:
the same points, blocks, point data and cell data, and no reserved entry. -/
def asReadMesh (mesh : MeshM) : ReadMesh :=
  ⟨mesh.points, mesh.cells.map (fun b => ⟨b.type, b.data⟩), mesh.point_data,
    mesh.cell_data, none⟩

/-! ### Specification helpers for the round-trip statement -/

/-- Total cell count of a block list. -/
def rowsOf (cells : List MBlock) : Nat :=
  (cells.map (fun b => b.data.length)).sum

/-- Total connectivity length of a block list. -/
def connLenOf (cells : List MBlock) : Nat :=
  (cells.map (fun b => b.cols * b.data.length)).sum

/-- The (start, end) cell-index runs the blocks of a mesh occupy. -/
def blockPairs (start : Nat) : List MBlock → List (Nat × Nat)
  | [] => []
  | b :: rest =>
      (start, start + b.data.length) :: blockPairs (start + b.data.length) rest

/-- The types array write builds for fixed-shape blocks: one code per cell. -/
def typesList (cells : List MBlock) : List Int :=
  (cells.map (fun b =>
    List.replicate b.data.length ((aGet meshio_to_vtk_type b.type).getD 0))).flatten

/-- A block within the round-trip statement's scope: nonempty and
rectangular, a fixed shape whose tag is not polygon/polyhedron prefixed,
whose code round-trips through the two cell-type tables, and whose column
count is the table's node count. -/
def fixedBlockOk (b : MBlock) : Bool :=
  !b.data.isEmpty &&
  b.data.all (fun row => row.length == b.cols) &&
  !(b.type.data.take 7 == "polygon".data) &&
  !(b.type.data.take 10 == "polyhedron".data) &&
  match aGet meshio_to_vtk_type b.type with
  | some code =>
      (aGet vtk_to_meshio_type code == some b.type) &&
      (aGet num_nodes_per_cell b.type == some b.cols)
  | none => false

/-- Adjacent blocks carry distinct type codes (runs never merge). -/
def adjacentDistinct : List MBlock → Bool
  | [] => true
  | [_] => true
  | a :: b :: rest =>
      ((aGet meshio_to_vtk_type a.type).getD 0 ≠
        (aGet meshio_to_vtk_type b.type).getD 0 : Bool) &&
        adjacentDistinct (b :: rest)

/-- Values representable in a w-byte unsigned scalar. -/
def arrValsOk (w : Nat) (vals : List Int) : Bool :=
  vals.all (fun v => 0 ≤ v && v < ((256 ^ w : Nat) : Int))

/-- The interior run boundaries a block list induces: the cumulative cell
counts short of the total. -/
def innerBounds : List MBlock → List Nat
  | [] => []
  | [_] => []
  | b :: rest => b.data.length :: (innerBounds rest).map (· + b.data.length)

/-- All run boundaries of a block list from a start index: start, the
cumulative counts, and the total. -/
def boundList (start : Nat) : List MBlock → List Nat
  | [] => [start]
  | b :: rest => start :: boundList (start + b.data.length) rest

/-- The cell_data dict of _cells_from_data after k fixed-shape blocks: every
name maps to its first k per-block slices (absent before the first block). -/
def cdState (k : Nat) (parts : AList String (List (List Int))) :
    AList String (List (List Int)) :=
  if k = 0 then [] else parts.map (fun p => (p.1, p.2.take k))

/-- One array's side conditions for the binary round trip: a positive width
dividing the compression block size, values representable unsigned in that
width, nonempty, and a byte count far below the header kind's range. -/
def arrOkB (hw w : Nat) (vals : List Int) : Bool :=
  decide (0 < w) && decide (w ∣ 32768) && arrValsOk w vals &&
    decide (vals ≠ []) && decide (65 * (w * vals.length) < 256 ^ hw)

/-- A small mesh exercising the round trip: one triangle, one point-data
array, one cell-data name. -/
def roundTripMesh : MeshM :=
  ⟨⟨8, false, [0, 0, 0, 2, 0, 0, 0, 2, 0]⟩,
   [⟨"triangle", 3, [[0, 1, 2]]⟩],
   [("temp", ⟨8, false, [7, 8, 9]⟩)],
   [("a", ⟨8, false, [[5]]⟩)]⟩

/-! ## Lemmas about the Python dict model -/

theorem aGet_aSet_self {α β : Type} [DecidableEq α] (d : AList α β) (k : α) (v : β) :
    aGet (aSet d k v) k = some v := by
  induction d with
  | nil => simp [aSet, aGet]
  | cons hd tl ih =>
      obtain ⟨k', v'⟩ := hd
      by_cases h : k' = k
      · simp [aSet, h, aGet]
      · simp [aSet, h, aGet, ih]

theorem aGet_aSet_ne {α β : Type} [DecidableEq α] (d : AList α β) (k j : α) (v : β)
    (h : k ≠ j) : aGet (aSet d k v) j = aGet d j := by
  induction d with
  | nil => simp [aSet, aGet, h]
  | cons hd tl ih =>
      obtain ⟨k', v'⟩ := hd
      by_cases hk : k' = k
      · subst hk; simp [aSet, aGet, h]
      · simp [aSet, hk, aGet, ih]

theorem mem_aSet {α β : Type} [DecidableEq α] (d : AList α β) (k : α) (v : β)
    (p : α × β) (h : p ∈ aSet d k v) : p = (k, v) ∨ p ∈ d := by
  induction d with
  | nil => simpa [aSet] using h
  | cons hd tl ih =>
      obtain ⟨k', v'⟩ := hd
      by_cases hk : k' = k
      · rw [aSet, if_pos hk] at h
        rcases List.mem_cons.mp h with h1 | h1
        · exact Or.inl h1
        · exact Or.inr (List.mem_cons_of_mem _ h1)
      · rw [aSet, if_neg hk] at h
        rcases List.mem_cons.mp h with h1 | h1
        · exact Or.inr (h1 ▸ List.mem_cons_self _ _)
        · rcases ih h1 with h2 | h2
          · exact Or.inl h2
          · exact Or.inr (List.mem_cons_of_mem _ h2)

theorem aGet_mem {α β : Type} [DecidableEq α] (d : AList α β) (k : α) (v : β)
    (h : aGet d k = some v) : (k, v) ∈ d := by
  induction d with
  | nil => simp [aGet] at h
  | cons hd tl ih =>
      obtain ⟨k', v'⟩ := hd
      by_cases hk : k' = k
      · rw [aGet, if_pos hk] at h
        cases h
        exact hk ▸ List.mem_cons_self _ _
      · rw [aGet, if_neg hk] at h
        exact List.mem_cons_of_mem _ (ih h)

theorem aPop_fst {α β : Type} [DecidableEq α] (d : AList α β) (k : α) :
    (aPop d k).1 = aGet d k := by
  induction d with
  | nil => simp [aPop, aGet]
  | cons hd tl ih =>
      obtain ⟨k', v'⟩ := hd
      by_cases hk : k' = k
      · simp [aPop, aGet, hk]
      · simp [aPop, aGet, hk, ih]

theorem aPop_of_get_none {α β : Type} [DecidableEq α] (d : AList α β) (k : α)
    (h : aGet d k = none) : (aPop d k).2 = d := by
  induction d with
  | nil => simp [aPop]
  | cons hd tl ih =>
      obtain ⟨k', v'⟩ := hd
      by_cases hk : k' = k
      · simp [aGet, hk] at h
      · simp only [aGet, if_neg hk] at h
        simp [aPop, hk, ih h]

theorem aGet_aPop_ne {α β : Type} [DecidableEq α] (d : AList α β) (k j : α)
    (h : j ≠ k) : aGet (aPop d k).2 j = aGet d j := by
  induction d with
  | nil => simp [aPop]
  | cons hd tl ih =>
      obtain ⟨k', v'⟩ := hd
      by_cases hk : k' = k
      · subst hk
        rw [aPop, if_pos rfl]
        rw [aGet, if_neg (fun hkj => h hkj.symm)]
      · rw [aPop, if_neg hk]
        show aGet ((k', v') :: (aPop tl k).2) j = _
        rw [aGet, aGet, ih]

theorem aGet_map_val {α β γ : Type} [DecidableEq α] (d : AList α β) (g : β → γ) (k : α) :
    aGet (d.map (fun p => (p.1, g p.2))) k = (aGet d k).map g := by
  induction d with
  | nil => simp [aGet]
  | cons hd tl ih =>
      obtain ⟨k', v'⟩ := hd
      by_cases hk : k' = k
      · simp [aGet, hk]
      · simp [aGet, hk, ih]

/-! ## The base64 boundary function (claim C8) -/

/-- Double-negated integer floor division by 3, times 4, is exactly the
rational ceiling of n/3, times 4. -/
theorem num_bytes_chars_eq (n : ℕ) :
    num_bytes_to_num_base64_chars (n : Int) = 4 * ⌈(n : ℚ) / 3⌉ := by
  unfold num_bytes_to_num_base64_chars
  rw [Int.fdiv_eq_ediv _ (by norm_num)]
  have h1 : ((n : ℚ) / 3) = -(((-(n : Int) : ℤ) : ℚ) / ((3 : ℕ) : ℚ)) := by
    push_cast; ring
  rw [h1, Int.ceil_neg, Rat.floor_intCast_div_natCast]
  push_cast
  ring

/-- Claim C8: the base64 boundary function maps byte count n to character
count ceil(n/3)*4; in particular byte counts 0, 1, 2, 3, 4 map to
character counts 0, 4, 4, 4, 8. -/
theorem claim_C8_base64_boundary :
    (∀ n : ℕ, num_bytes_to_num_base64_chars (n : Int) = 4 * ⌈(n : ℚ) / 3⌉) ∧
    num_bytes_to_num_base64_chars 0 = 0 ∧
    num_bytes_to_num_base64_chars 1 = 4 ∧
    num_bytes_to_num_base64_chars 2 = 4 ∧
    num_bytes_to_num_base64_chars 3 = 4 ∧
    num_bytes_to_num_base64_chars 4 = 8 :=
  ⟨num_bytes_chars_eq, by decide, by decide, by decide, by decide, by decide⟩

/-! ## Claims settled by evaluating the embedded code (C2, C3, C4) -/

/-- Claim C2 (code bug): merging two pieces that both carry cell data
returns both blocks but keeps only the LAST piece's cell data, because the
loop of _organize_cells rebinds cell_data on every piece: here the name
"a" maps to the single array [20] although two blocks were emitted, so the
merged mesh does not hold one array per block. -/
theorem claim_C2_cell_data_overwritten :
    _organize_cells [0, 3]
        [⟨[0, 1, 2], [3], [5], none, none⟩, ⟨[0, 1, 2], [3], [5], none, none⟩]
        [[("a", [10])], [("a", [20])]] =
      .ok ([⟨"triangle", [[0, 1, 2]]⟩, ⟨"triangle", [[3, 4, 5]]⟩],
        ([("a", [[20]])], none)) := by decide

/-- Claim C3 (code bug): an explicit header_type sets the root attribute,
but the conditional assignment of lines 660-662 binds the local
header_type to the return value of Element.set, Python's None, so both
binary header writers crash on the vtu_to_numpy_type lookup with a
KeyError instead of encoding any header in the requested width; only the
default path yields "UInt32" (width 4). -/
theorem claim_C3_header_type_override_crashes :
    writeHeaderTypeState (some "UInt64") = (some "UInt64", none) ∧
    headerDtypeWidth (writeHeaderTypeState (some "UInt64")).2 = .error .keyError ∧
    writeHeaderTypeState none = (none, some "UInt32") ∧
    headerDtypeWidth (writeHeaderTypeState none).2 = .ok 4 :=
  ⟨rfl, rfl, rfl, by decide⟩

/-- Claim C4 (code bug): an offsets/types length mismatch and an
unsupported shape code raise the decode error, but a polyhedron run whose
faces/faceoffsets are missing, when it is the first polyhedron run of the
piece, reads found_faces_before before any assignment: an
UnboundLocalError crash rather than the intended ValueError decode error
(which is unreachable). -/
theorem claim_C4_missing_faces_crash :
    _cells_from_data [0, 1, 2] [1] [] [] = .error .readError ∧
    _cells_from_data [0, 1, 2] [3] [99] [] = .error .readError ∧
    _cells_from_data [0, 1, 2, 3] [4] [42] [] = .error .unboundLocal :=
  ⟨by decide, by decide, by decide⟩

/-! ## Counterexamples from the polyhedron size/distinct-count mismatch -/

/-- Claim C5 counterexample: a polyhedron cell whose connectivity size from
the offsets (5) differs from the distinct-node count of its faces (4): the
emitted CellBlock is grouped and tagged polyhedron5 by that size, while
the face-list mapping is keyed polyhedron4, so the blocks are NOT grouped
and tagged by the distinct-node count as claimed. -/
theorem claim_C5_counterexample :
    _cells_from_data [0, 1, 2, 3, 0] [5] [42]
        [("faces", [4, 3, 0, 1, 2, 3, 0, 1, 3, 3, 0, 2, 3, 3, 1, 2, 3]),
         ("faceoffsets", [17])] =
      .ok ⟨[⟨"polyhedron5", [[0, 1, 2, 3, 0]]⟩], [],
        some [("polyhedron4",
          some [[[0, 1, 2], [0, 1, 3], [0, 2, 3], [1, 2, 3]]])]⟩ ∧
    cellDistinctNodes [[0, 1, 2], [0, 1, 3], [0, 2, 3], [1, 2, 3]] = .ok 4 :=
  ⟨by decide, by decide⟩

/-- Claim C9 counterexample: in the same mismatched grid a polyhedron block
is emitted with tag polyhedron5, yet the reserved mapping carries no entry
under that tag (its only polyhedron key is polyhedron4), so the mapping
does not contain an entry for every emitted block. -/
theorem claim_C9_counterexample :
    (_cells_from_data [0, 1, 2, 3, 0] [5] [42]
        [("faces", [4, 3, 0, 1, 2, 3, 0, 1, 3, 3, 0, 2, 3, 3, 1, 2, 3]),
         ("faceoffsets", [17])]).map
        (fun out => (out.cells.map CellBlock.type,
          out.polyFaces.map (fun m => aGet m "polyhedron5"))) =
      .ok (["polyhedron5"], some none) := by decide

/-! ## Claim C10: the writer's frame effects -/

/-- Claim C10 counterexample: a mesh whose 3-column points array is in
non-native byte order: after write returns, the caller's mesh.points still
has non-native byte order, because line 681 binds the recast points to a
local instead of the mesh attribute. -/
theorem claim_C10_counterexample :
    (writeFrame ⟨⟨4, 3, false⟩, [], [], [], []⟩).points = ⟨4, 3, false⟩ := by decide

/-! ## Claim C1 counterexample: adjacent same-type blocks merge -/

/-- Claim C1 counterexample: a mesh of two consecutive triangle blocks,
written in the exact ascii configuration: the two blocks form one type
run, so reading back yields ONE triangle block of two cells (and the cell
data arrays merge along with it), not the original two blocks. -/
theorem claim_C1_counterexample :
    (writeDoc .asciiC 4
        ⟨⟨8, false, [0, 1, 2, 3, 4, 5, 6, 7, 8, 9, 10, 11, 12, 13, 14, 15, 16, 17]⟩,
         [⟨"triangle", 3, [[0, 1, 2]]⟩, ⟨"triangle", 3, [[3, 4, 5]]⟩],
         [("p", ⟨4, false, [1, 2, 3, 4, 5, 6]⟩)],
         [("a", ⟨4, false, [[10], [20]]⟩)]⟩).bind (readDoc id) ≠
      .ok (asReadMesh
        ⟨⟨8, false, [0, 1, 2, 3, 4, 5, 6, 7, 8, 9, 10, 11, 12, 13, 14, 15, 16, 17]⟩,
         [⟨"triangle", 3, [[0, 1, 2]]⟩, ⟨"triangle", 3, [[3, 4, 5]]⟩],
         [("p", ⟨4, false, [1, 2, 3, 4, 5, 6]⟩)],
         [("a", ⟨4, false, [[10], [20]]⟩)]⟩) ∧
    (writeDoc .asciiC 4
        ⟨⟨8, false, [0, 1, 2, 3, 4, 5, 6, 7, 8, 9, 10, 11, 12, 13, 14, 15, 16, 17]⟩,
         [⟨"triangle", 3, [[0, 1, 2]]⟩, ⟨"triangle", 3, [[3, 4, 5]]⟩],
         [("p", ⟨4, false, [1, 2, 3, 4, 5, 6]⟩)],
         [("a", ⟨4, false, [[10], [20]]⟩)]⟩).bind (readDoc id) =
      .ok ⟨⟨8, false, [0, 1, 2, 3, 4, 5, 6, 7, 8, 9, 10, 11, 12, 13, 14, 15, 16, 17]⟩,
        [⟨"triangle", [[0, 1, 2], [3, 4, 5]]⟩],
        [("p", ⟨4, false, [1, 2, 3, 4, 5, 6]⟩)],
        [("a", ⟨4, false, [[10, 20]]⟩)], none⟩ :=
  ⟨by decide, by decide⟩

/-- Claim C10 amended: write's frame effects on the caller's mesh object:
2D points are replaced by the 3-column native-order promotion while
3-column points are left untouched - their byte order is NOT re-cast, the
recast copy only binds a local; the cell-block, point-data, cell-data and
field-data arrays ARE re-cast to native byte order in place; and the
reserved face-list entry, removed at the start of write, is present again
unchanged when write returns. -/
theorem claim_C10_amended (mesh : MeshState) :
    ((writeFrame mesh).points =
      (if mesh.points.cols = 2 then ⟨mesh.points.rows, 3, true⟩ else mesh.points)) ∧
    ((writeFrame mesh).cells =
      mesh.cells.map (fun p => (p.1, astypeNative p.2))) ∧
    ((writeFrame mesh).point_data =
      mesh.point_data.map (fun p => (p.1, astypeNative p.2))) ∧
    ((writeFrame mesh).field_data =
      mesh.field_data.map (fun p => (p.1, astypeNative p.2))) ∧
    (∀ name, name ≠ "polyhedron:faces_of_cells" →
      aGet (writeFrame mesh).cell_data name =
        (aGet mesh.cell_data name).map (fun l => l.map astypeNative)) ∧
    (aGet (writeFrame mesh).cell_data "polyhedron:faces_of_cells" =
      aGet mesh.cell_data "polyhedron:faces_of_cells") := by
  obtain ⟨pts, cls, pd, cd, fd⟩ := mesh
  rcases hpop : aPop cd "polyhedron:faces_of_cells" with ⟨pv, prest⟩
  cases pv with
  | none =>
      have hget : aGet cd "polyhedron:faces_of_cells" = none := by
        rw [← aPop_fst, hpop]
      have hrest : prest = cd := by
        have h2 := aPop_of_get_none cd "polyhedron:faces_of_cells" hget
        rw [hpop] at h2; exact h2
      subst hrest
      by_cases hc : pts.cols = 2 <;>
        refine ⟨?_, ?_, ?_, ?_, fun name hn => ?_, ?_⟩ <;>
        simp only [writeFrame, hc, if_true, if_false, ite_true, ite_false, hpop] <;>
        rw [aGet_map_val] <;> simp [hget]
  | some v =>
      have hget : aGet cd "polyhedron:faces_of_cells" = some v := by
        rw [← aPop_fst, hpop]
      have h3 : ∀ name, name ≠ "polyhedron:faces_of_cells" →
          aGet prest name = aGet cd name := by
        intro name hn
        rw [← aGet_aPop_ne cd "polyhedron:faces_of_cells" name hn, hpop]
      by_cases hc : pts.cols = 2 <;>
        refine ⟨?_, ?_, ?_, ?_, fun name hn => ?_, ?_⟩ <;>
        simp only [writeFrame, hc, if_true, if_false, ite_true, ite_false, hpop]
      · rw [aGet_aSet_ne _ _ _ _ (fun h => hn h.symm), aGet_map_val, h3 name hn]
      · rw [aGet_aSet_self, hget]
      · rw [aGet_aSet_ne _ _ _ _ (fun h => hn h.symm), aGet_map_val, h3 name hn]
      · rw [aGet_aSet_self, hget]

/-- Decoding an encoded byte string gives it back (bytes below 256). -/
theorem b64_decode_encode (bs : List Nat) (h : ∀ b ∈ bs, b < 256) :
    b64decode (b64encode bs) = bs := by
  induction bs using b64encode.induct with
  | case1 => rfl
  | case2 a =>
      have ha : a < 256 := h a (by simp)
      simp only [b64encode, b64decode, List.cons.injEq, and_true]
      omega
  | case3 a b =>
      have ha : a < 256 := h a (by simp)
      have hb : b < 256 := h b (by simp)
      simp only [b64encode, b64decode, List.cons.injEq, and_true]
      omega
  | case4 a b c rest ih =>
      have ha : a < 256 := h a (by simp)
      have hb : b < 256 := h b (by simp)
      have hc : c < 256 := h c (by simp)
      have ih' := ih (fun x hx => h x (by simp [hx]))
      simp only [b64encode, b64decode, List.cons.injEq, ih', and_true]
      omega

/-- When the byte count is no multiple of three the encoding ends in a
padded quantum, so the decoder stops there and ignores anything appended
after the run. -/
theorem b64_decode_encode_append (bs : List Nat) (rest : List B64)
    (hlen : bs.length % 3 ≠ 0) (h : ∀ b ∈ bs, b < 256) :
    b64decode (b64encode bs ++ rest) = bs := by
  induction bs using b64encode.induct with
  | case1 => simp at hlen
  | case2 a =>
      have ha : a < 256 := h a (by simp)
      simp only [b64encode, b64decode, List.cons_append, List.cons.injEq, and_true]
      omega
  | case3 a b =>
      have ha : a < 256 := h a (by simp)
      have hb : b < 256 := h b (by simp)
      simp only [b64encode, b64decode, List.cons_append, List.cons.injEq, and_true]
      omega
  | case4 a b c rest2 ih =>
      have ha : a < 256 := h a (by simp)
      have hb : b < 256 := h b (by simp)
      have hc : c < 256 := h c (by simp)
      have hl3 : (a :: b :: c :: rest2).length = rest2.length + 3 := by simp
      have hlen' : rest2.length % 3 ≠ 0 := by
        rw [hl3] at hlen; omega
      have ih' := ih hlen' (fun x hx => h x (by simp [hx]))
      simp only [b64encode, b64decode, List.cons_append, List.append_eq,
        List.cons.injEq, ih', and_true]
      omega

/-- Character count of an encoded byte string: four per started triple. -/
theorem b64encode_length (bs : List Nat) :
    (b64encode bs).length = ((bs.length + 2) / 3) * 4 := by
  induction bs using b64encode.induct with
  | case1 => simp [b64encode]
  | case2 a => simp [b64encode]
  | case3 a b => simp [b64encode]
  | case4 a b c rest ih =>
      simp only [b64encode, List.length_cons, ih]
      omega
/-- A w-byte little-endian rendering has w bytes. -/
theorem toLE_length (w n : Nat) : (toLE w n).length = w := by
  induction w generalizing n with
  | zero => rfl
  | succ w' ih => simp [toLE, ih]

/-- Little-endian rendered bytes are bytes. -/
theorem toLE_lt (w n : Nat) : ∀ b ∈ toLE w n, b < 256 := by
  induction w generalizing n with
  | zero => simp [toLE]
  | succ w' ih =>
      intro b hb
      simp only [toLE, List.mem_cons] at hb
      rcases hb with hb | hb
      · omega
      · exact ih _ b hb

/-- Reading back a little-endian rendering gives the value mod 256^w. -/
theorem fromLE_toLE (w n : Nat) : fromLE (toLE w n) = n % 256 ^ w := by
  induction w generalizing n with
  | zero => simp [toLE, fromLE, Nat.mod_one]
  | succ w' ih =>
      simp only [toLE, fromLE, ih]
      rw [pow_succ, mul_comm (256 ^ w') 256, Nat.mod_mul]

/-- Decoding a quantum-aligned prefix of an encoding yields the matching
prefix of the bytes. -/
theorem b64_decode_take (bs : List Nat) (k : Nat) (h : ∀ b ∈ bs, b < 256) :
    b64decode ((b64encode bs).take (4 * k)) = bs.take (3 * k) := by
  induction bs using b64encode.induct generalizing k with
  | case1 => simp [b64encode, b64decode]
  | case2 a =>
      cases k with
      | zero => simp [b64decode]
      | succ k' =>
          have ha : a < 256 := h a (by simp)
          simp only [b64encode]
          rw [List.take_of_length_le (by simp),
            List.take_of_length_le (by simp; omega)]
          simp only [b64decode, List.cons.injEq, and_true]
          omega
  | case3 a b =>
      cases k with
      | zero => simp [b64decode]
      | succ k' =>
          have ha : a < 256 := h a (by simp)
          have hb : b < 256 := h b (by simp)
          simp only [b64encode]
          rw [List.take_of_length_le (by simp),
            List.take_of_length_le (by simp; omega)]
          simp only [b64decode, List.cons.injEq, and_true]
          omega
  | case4 a b c rest ih =>
      cases k with
      | zero => simp [b64decode]
      | succ k' =>
          have ha : a < 256 := h a (by simp)
          have hb : b < 256 := h b (by simp)
          have hc : c < 256 := h c (by simp)
          have ih' := ih k' (fun x hx => h x (by simp [hx]))
          simp only [b64encode]
          rw [show 4 * (k' + 1) = 4 * k' + 1 + 1 + 1 + 1 from by ring,
            show 3 * (k' + 1) = 3 * k' + 1 + 1 + 1 from by ring]
          simp only [List.take_succ_cons, b64decode, List.cons.injEq, ih', and_true]
          omega
/-- Core of claim C7: uncompressed binary decoding recovers the payload
both when header and payload were encoded as one base64 run and when the
header was encoded alone in its own padded segment. -/
theorem read_uncompressed_roundtrip (hw : Nat) (payload : List Nat)
    (h3 : hw % 3 ≠ 0) (hb : ∀ b ∈ payload, b < 256)
    (hlen : payload.length < 256 ^ hw) :
    read_uncompressed_binary
        (b64encode (toLE hw payload.length ++ payload)) hw = payload ∧
    read_uncompressed_binary
        (b64encode (toLE hw payload.length) ++ b64encode payload) hw = payload := by
  have hhb : ∀ b ∈ toLE hw payload.length, b < 256 := toLE_lt hw payload.length
  have hall : ∀ b ∈ toLE hw payload.length ++ payload, b < 256 := by
    intro b hbm
    rcases List.mem_append.mp hbm with hm | hm
    · exact hhb b hm
    · exact hb b hm
  have hlenLE : (toLE hw payload.length).length = hw := toLE_length hw payload.length
  have htake : (toLE hw payload.length ++ payload).take hw = toLE hw payload.length := by
    have h0 := List.take_left (toLE hw payload.length) payload
    rwa [hlenLE] at h0
  have hdrop : (toLE hw payload.length ++ payload).drop hw = payload := by
    have h0 := List.drop_left (toLE hw payload.length) payload
    rwa [hlenLE] at h0
  have htot : fromLE ((toLE hw payload.length ++ payload).take hw) = payload.length := by
    rw [htake, fromLE_toLE, Nat.mod_eq_of_lt hlen]
  constructor
  · simp only [read_uncompressed_binary]
    rw [b64_decode_encode _ hall]
    rw [htot]
    by_cases hp : payload = []
    · subst hp
      rw [if_pos (by simp [toLE_length])]
      simp
    · rw [if_neg (by
        simp only [List.length_append, hlenLE]
        have : payload.length ≠ 0 := fun hc => hp (List.length_eq_zero.mp hc)
        omega)]
      rw [hdrop, List.take_length]
  · simp only [read_uncompressed_binary]
    have hdec1 : b64decode (b64encode (toLE hw payload.length) ++ b64encode payload) =
        toLE hw payload.length := by
      apply b64_decode_encode_append
      · rw [hlenLE]; exact h3
      · exact hhb
    rw [hdec1]
    rw [List.take_of_length_le (le_of_eq hlenLE), fromLE_toLE, Nat.mod_eq_of_lt hlen]
    rw [if_pos hlenLE]
    rw [List.drop_left, b64_decode_encode _ hb, List.take_length]

/-- Claim C7: for every payload and header width (all header kinds have
1, 2, 4 or 8 bytes, never a multiple of three), uncompressed binary
decoding returns the original array in both layouts: header and payload
base64-encoded as one run, and the header encoded alone in its own segment
followed by a separately encoded payload; in the second case the decoder
recomputes the header's base64 boundary, which is exactly
num_bytes_to_num_base64_chars(header bytes) = ceil(bytes/3)*4 characters,
slices there and decodes the remainder separately. -/
theorem claim_C7_uncompressed_layouts (hw : Nat) (payload : List Nat)
    (h3 : hw % 3 ≠ 0) (hb : ∀ b ∈ payload, b < 256)
    (hlen : payload.length < 256 ^ hw) :
    read_uncompressed_binary
        (b64encode (toLE hw payload.length ++ payload)) hw = payload ∧
    read_uncompressed_binary
        (b64encode (toLE hw payload.length) ++ b64encode payload) hw = payload ∧
    ((b64encode (toLE hw payload.length)).length : Int) =
      num_bytes_to_num_base64_chars (hw : Int) := by
  obtain ⟨h1, h2⟩ := read_uncompressed_roundtrip hw payload h3 hb hlen
  refine ⟨h1, h2, ?_⟩
  rw [b64encode_length, toLE_length]
  unfold num_bytes_to_num_base64_chars
  rw [Int.fdiv_eq_ediv _ (by norm_num)]
  omega

/-- Claim C7 witness: both layouts at the UInt32 header width on the
concrete payload bytes 7, 8, 9. -/
theorem claim_C7_witness :
    read_uncompressed_binary
        (b64encode (toLE 4 ([7, 8, 9] : List Nat).length ++ [7, 8, 9])) 4 =
      [7, 8, 9] ∧
    read_uncompressed_binary
        (b64encode (toLE 4 ([7, 8, 9] : List Nat).length) ++
          b64encode [7, 8, 9]) 4 = [7, 8, 9] ∧
    ((b64encode (toLE 4 ([7, 8, 9] : List Nat).length)).length : Int) =
      num_bytes_to_num_base64_chars ((4 : Nat) : Int) :=
  claim_C7_uncompressed_layouts 4 [7, 8, 9] (by decide) (by decide) (by decide)

/-- A successful non-negative index is in range and reads the element. -/
theorem pyIndex_nat_ok (l : List Int) (i : Nat) (v : Int)
    (h : pyIndex l (i : Int) = .ok v) : i < l.length ∧ v = l.getD i 0 := by
  unfold pyIndex at h
  have hnn : ¬((i : Int) < 0) := by omega
  simp only [hnn, if_false, ite_false] at h
  split at h
  · rename_i hcond
    cases h
    constructor
    · omega
    · simp
  · cases h

/-- Core of claim C6: a run boundary sits between positions i and i+1
exactly when the type code changes there, so the runs are the maximal
constant segments. -/
theorem mem_runBoundaries_iff (ts : List Int) (i : Nat) (h : i + 1 < ts.length) :
    (i + 1) ∈ runBoundaries ts ↔ ts.getD i 0 ≠ ts.getD (i + 1) 0 := by
  unfold runBoundaries
  simp only [List.mem_cons, List.mem_append, List.mem_map, List.mem_filter,
    List.mem_range, List.mem_singleton, decide_eq_true_eq]
  constructor
  · rintro (h0 | ⟨⟨j, hj, hji⟩ | hlast⟩)
    · exact absurd h0 (by omega)
    · have hji' : j = i := by omega
      subst hji'
      exact hj.2
    · rcases hlast with hl | hl
      · exact absurd hl (by omega)
      · exact absurd hl (List.not_mem_nil _)
  · intro hne
    refine Or.inr (Or.inl ⟨i, ⟨?_, hne⟩, rfl⟩)
    omega
/-- Inversion of a successful Except bind. -/
theorem except_bind_ok {α β : Type} {e : Except PyErr α} {f : α → Except PyErr β}
    {b : β} (h : (e >>= f) = .ok b) : ∃ a, e = .ok a ∧ f a = .ok b := by
  cases e with
  | error err => simp [Bind.bind, Except.bind] at h
  | ok a =>
      refine ⟨a, rfl, ?_⟩
      simpa [Bind.bind, Except.bind] using h

/-- A successful fixed run appends exactly one block, tagged with the
meshio type, and touches neither the reserved entry nor the polyhedron
flag. -/
theorem processFixedRun_spec (conn offs : List Int) (tcode : Int) (mt : String)
    (start end_ : Nat) (st st' : RunState)
    (h : processFixedRun conn offs tcode mt start end_ st = .ok st') :
    (∃ rows, st'.cells = st.cells ++ [⟨mt, rows⟩]) ∧
    st'.polyFaces = st.polyFaces ∧ st'.hasPolyhedron = st.hasPolyhedron := by
  unfold processFixedRun at h
  cases htab : aGet num_nodes_per_cell mt with
  | none => rw [htab] at h; cases h
  | some n =>
      rw [htab] at h
      obtain ⟨rows, _hrows, hok⟩ := except_bind_ok h
      cases hok
      exact ⟨⟨rows, rfl⟩, rfl, rfl⟩

/-- A successful run whose start code is fixed goes through the
fixed-shape branch: one block, tagged by the table name of the code at the
run start. -/
theorem processRun_fixed (conn offs ts : List Int) (st st' : RunState)
    (se : Nat × Nat) (hfix : ∀ t ∈ ts, isFixedCode t = true)
    (h : processRun conn offs ts st se = .ok st') :
    (∃ rows, st'.cells = st.cells ++
      [⟨(aGet vtk_to_meshio_type (ts.getD se.1 0)).getD "", rows⟩]) ∧
    st'.polyFaces = st.polyFaces ∧ st'.hasPolyhedron = st.hasPolyhedron := by
  unfold processRun at h
  obtain ⟨tcode, hidx, h⟩ := except_bind_ok h
  obtain ⟨hlt, hval⟩ := pyIndex_nat_ok ts se.1 tcode hidx
  subst hval
  have hmem : ts.getD se.1 0 ∈ ts := by
    rw [List.getD_eq_getElem?_getD]
    have hx : ts[se.1]? = some ts[se.1] := List.getElem?_eq_getElem hlt
    rw [hx]
    simp only [Option.getD_some]
    exact List.getElem_mem hlt
  have hfx := hfix _ hmem
  unfold isFixedCode at hfx
  cases htab : aGet vtk_to_meshio_type (ts.getD se.1 0) with
  | none => rw [htab] at hfx; cases hfx
  | some mt =>
      rw [htab] at hfx
      simp only [htab] at h
      simp only [Bool.and_eq_true, decide_eq_true_eq] at hfx
      rw [if_neg (by
        rintro (hp | hp)
        · exact hfx.1.1 hp
        · exact hfx.1.2 hp)] at h
      have := processFixedRun_spec conn offs _ mt se.1 se.2 st st' h
      simpa using this

/-- Over fixed codes the run loop emits exactly one block per (start, end)
pair, in pair order. -/
theorem foldlM_processRun_fixed (conn offs ts : List Int)
    (hfix : ∀ t ∈ ts, isFixedCode t = true) :
    ∀ (pairs : List (Nat × Nat)) (st st' : RunState),
      pairs.foldlM (processRun conn offs ts) st = .ok st' →
      st'.cells.map CellBlock.type =
        st.cells.map CellBlock.type ++
          pairs.map (fun se => (aGet vtk_to_meshio_type (ts.getD se.1 0)).getD "") ∧
      st'.polyFaces = st.polyFaces ∧ st'.hasPolyhedron = st.hasPolyhedron := by
  intro pairs
  induction pairs with
  | nil =>
      intro st st' h
      simp only [List.foldlM_nil] at h
      cases h
      simp
  | cons se rest ih =>
      intro st st' h
      simp only [List.foldlM_cons] at h
      obtain ⟨st1, h1, h2⟩ := except_bind_ok h
      obtain ⟨⟨rows, hc⟩, hpf, hhp⟩ := processRun_fixed conn offs ts st st1 se hfix h1
      obtain ⟨hc2, hpf2, hhp2⟩ := ih st1 st' h2
      refine ⟨?_, by rw [hpf2, hpf], by rw [hhp2, hhp]⟩
      rw [hc2, hc]
      simp
/-- Core of claim C6: on an all-fixed-code type array, _cells_from_data
emits one block per maximal run, in input run order, tagged by the run
code. -/
theorem cells_from_data_fixed_types (conn offs ts : List Int)
    (cdr : AList String (List Int)) (out : CellsOut)
    (hfix : ∀ t ∈ ts, isFixedCode t = true)
    (h : _cells_from_data conn offs ts cdr = .ok out) :
    out.cells.map CellBlock.type =
      (runPairs ts).map
        (fun se => (aGet vtk_to_meshio_type (ts.getD se.1 0)).getD "") := by
  unfold _cells_from_data at h
  split at h
  · cases h
  · obtain ⟨st, hfold, hfin⟩ := except_bind_ok h
    obtain ⟨hc, _hpf, hhp⟩ :=
      foldlM_processRun_fixed conn offs ts hfix (runPairs ts) _ _ hfold
    have hhp' : st.hasPolyhedron = false := by rw [hhp]
    rw [hhp'] at hfin
    simp only [Bool.false_eq_true, if_false, ite_false] at hfin
    cases hfin
    simpa using hc

/-- Claim C6: the reorganizer partitions cells into maximal runs of equal
consecutive type code, with a boundary between positions i and i+1 exactly
when the code changes there, and for fixed-node-count codes emits exactly
one block per run, in input run order, tagged by the run's shape - never
merged or reordered.  In particular types [T,T,U,U] (T triangle code 5, U
quad code 9) give two blocks in that order, and offsets [3,6] with types
[T,T] and connectivity [0..5] give one triangle block with rows [0,1,2]
and [3,4,5] under the identity node order. -/
theorem claim_C6_maximal_runs :
    (∀ (ts : List Int) (i : Nat), i + 1 < ts.length →
      ((i + 1) ∈ runBoundaries ts ↔ ts.getD i 0 ≠ ts.getD (i + 1) 0)) ∧
    (∀ (conn offs ts : List Int) (cdr : AList String (List Int)) (out : CellsOut),
      (∀ t ∈ ts, isFixedCode t = true) →
      _cells_from_data conn offs ts cdr = .ok out →
      out.cells.map CellBlock.type =
        (runPairs ts).map
          (fun se => (aGet vtk_to_meshio_type (ts.getD se.1 0)).getD "")) ∧
    _cells_from_data [0, 1, 2, 3, 4, 5] [3, 6] [5, 5] [] =
      .ok ⟨[⟨"triangle", [[0, 1, 2], [3, 4, 5]]⟩], [], none⟩ ∧
    _cells_from_data [0, 1, 2, 3, 4, 5, 6, 7, 8, 9, 10, 11, 12, 13]
        [3, 6, 10, 14] [5, 5, 9, 9] [] =
      .ok ⟨[⟨"triangle", [[0, 1, 2], [3, 4, 5]]⟩,
            ⟨"quad", [[6, 7, 8, 9], [10, 11, 12, 13]]⟩], [], none⟩ :=
  ⟨mem_runBoundaries_iff, cells_from_data_fixed_types, by decide, by decide⟩

/-- Core of claim C5: the face-list buckets are keyed by the distinct-node
count of the cells they hold. -/
theorem build_faces_of_cells_spec (faces fo : List Int) (m : AList Nat Faces)
    (h : build_faces_of_cells faces fo = .ok m) :
    ∀ p ∈ m, ∀ cf ∈ p.2, cellDistinctNodes cf = .ok p.1 := by
  suffices H : ∀ (fos : List Int) (acc mm : AList Nat Faces),
      (∀ p ∈ acc, ∀ cf ∈ p.2, cellDistinctNodes cf = .ok p.1) →
      fos.foldlM (fun acc cell_start => do
          let fc ← parse_cell_faces faces cell_start
          let nn ← cellDistinctNodes fc
          Except.ok (aSet acc nn (((aGet acc nn).getD []) ++ [fc]))) acc = .ok mm →
      ∀ p ∈ mm, ∀ cf ∈ p.2, cellDistinctNodes cf = .ok p.1 by
    exact H fo [] m (by simp) h
  intro fos
  induction fos with
  | nil =>
      intro acc mm hinv hm
      simp only [List.foldlM_nil] at hm
      cases hm
      exact hinv
  | cons c rest ih =>
      intro acc mm hinv hm
      simp only [List.foldlM_cons] at hm
      obtain ⟨acc1, hstep, hrest⟩ := except_bind_ok hm
      obtain ⟨fc, _hfc, hstep⟩ := except_bind_ok hstep
      obtain ⟨nn, hnn, hstep⟩ := except_bind_ok hstep
      cases hstep
      refine ih _ _ ?_ hrest
      intro p hp cf hcf
      rcases mem_aSet _ _ _ _ hp with hpe | hpm
      · subst hpe
        simp only at hcf
        rcases List.mem_append.mp hcf with hcf | hcf
        · cases hg : aGet acc nn with
          | none => rw [hg] at hcf; simp at hcf
          | some old =>
              rw [hg] at hcf
              simp only [Option.getD_some] at hcf
              exact hinv (nn, old) (aGet_mem _ _ _ hg) cf hcf
        · rcases List.mem_singleton.mp hcf with rfl
          exact hnn
      · exact hinv p hpm cf hcf
/-- Generic fold fact: a step that appends one block tagged g sz and keeps
the polyhedron flags yields, over a size list, one block per size in list
order. -/
theorem foldlM_tags {f : RunState → Int → Except PyErr RunState} {g : Int → String}
    (hf : ∀ st sz st', f st sz = .ok st' →
        (∃ rows, st'.cells = st.cells ++ [⟨g sz, rows⟩]) ∧
        st'.polyFaces = st.polyFaces ∧ st'.hasPolyhedron = st.hasPolyhedron) :
    ∀ (szs : List Int) (st0 st1 : RunState),
      szs.foldlM f st0 = .ok st1 →
      st1.cells.map CellBlock.type = st0.cells.map CellBlock.type ++ szs.map g ∧
      st1.polyFaces = st0.polyFaces ∧ st1.hasPolyhedron = st0.hasPolyhedron := by
  intro szs
  induction szs with
  | nil =>
      intro st0 st1 hm
      simp only [List.foldlM_nil] at hm
      cases hm
      simp
  | cons sz rest ih =>
      intro st0 st1 hm
      simp only [List.foldlM_cons] at hm
      obtain ⟨stA, hstep, hrest⟩ := except_bind_ok hm
      obtain ⟨⟨rows, hc0⟩, hp0, hh0⟩ := hf _ _ _ hstep
      obtain ⟨hc, hp, hh⟩ := ih _ _ hrest
      refine ⟨?_, by rw [hp, hp0], by rw [hh, hh0]⟩
      rw [hc, hc0]
      simp

/-- Core of claim C5: a variable-size run emits one block per distinct
per-cell size (sizes from consecutive offset differences), each tagged by
the meshio type followed by that size, and leaves the reserved entry and
the polyhedron flag alone. -/
theorem processVarRun_spec (conn offs : List Int) (tcode : Int) (mt : String)
    (start end_ : Nat) (st st' : RunState)
    (h : processVarRun conn offs tcode mt start end_ st = .ok st') :
    (∃ first_node : Int,
      st'.cells.map CellBlock.type =
        st.cells.map CellBlock.type ++
          (npUnique (npDiff
            (first_node :: (offs.drop start).take (end_ - start)))).map
            (fun sz => mt ++ toString sz)) ∧
    st'.polyFaces = st.polyFaces ∧ st'.hasPolyhedron = st.hasPolyhedron := by
  simp only [processVarRun] at h
  split at h
  · obtain ⟨fn, hfn, h⟩ := except_bind_ok h
    cases hfn
    obtain ⟨hc, hp, hh⟩ := foldlM_tags (g := fun sz => mt ++ toString sz)
      (f := fun st sz => _) (fun stA szA stB hstep => by
        obtain ⟨rows, _hrows, hstep⟩ := except_bind_ok hstep
        obtain ⟨cd, _hcd, hstep⟩ := except_bind_ok hstep
        cases hstep
        exact ⟨⟨rows, rfl⟩, rfl, rfl⟩) _ _ _ h
    exact ⟨⟨0, hc⟩, hp, hh⟩
  · obtain ⟨fn, hfn, h⟩ := except_bind_ok h
    obtain ⟨hc, hp, hh⟩ := foldlM_tags (g := fun sz => mt ++ toString sz)
      (f := fun st sz => _) (fun stA szA stB hstep => by
        obtain ⟨rows, _hrows, hstep⟩ := except_bind_ok hstep
        obtain ⟨cd, _hcd, hstep⟩ := except_bind_ok hstep
        cases hstep
        exact ⟨⟨rows, rfl⟩, rfl, rfl⟩) _ _ _ h
    exact ⟨⟨fn, hc⟩, hp, hh⟩

/-- Claim C5 amended: within a polyhedron run the reserved face-list
mapping groups the cells by the number of distinct node indices referenced
across all of each cell's faces (not by face count), each entry tagged
"polyhedron" followed by that distinct-node count; the emitted CellBlocks,
however, are grouped by per-cell connectivity size (consecutive offset
differences) and tagged "polyhedron" followed by that size.  The two
groupings coincide exactly when every cell's connectivity size equals its
distinct-node count, as in the consistent tetrahedron example. -/
theorem claim_C5_amended :
    (∀ (faces fo : List Int) (m : AList Nat Faces),
      build_faces_of_cells faces fo = .ok m →
      ∀ q ∈ polyFacesEntry m,
        ∃ k v, q = ("polyhedron" ++ toString k, some v) ∧
          ∀ cf ∈ v, cellDistinctNodes cf = .ok k) ∧
    (∀ (conn offs : List Int) (tcode : Int) (mt : String) (start end_ : Nat)
        (st st' : RunState),
      processVarRun conn offs tcode mt start end_ st = .ok st' →
      ∃ first_node : Int,
        st'.cells.map CellBlock.type =
          st.cells.map CellBlock.type ++
            (npUnique (npDiff
              (first_node :: (offs.drop start).take (end_ - start)))).map
              (fun sz => mt ++ toString sz)) ∧
    _cells_from_data [0, 1, 2, 3] [4] [42]
        [("faces", [4, 3, 0, 1, 2, 3, 0, 1, 3, 3, 0, 2, 3, 3, 1, 2, 3]),
         ("faceoffsets", [17])] =
      .ok ⟨[⟨"polyhedron4", [[0, 1, 2, 3]]⟩], [],
        some [("polyhedron4",
          some [[[0, 1, 2], [0, 1, 3], [0, 2, 3], [1, 2, 3]]])]⟩ := by
  refine ⟨?_, ?_, by decide⟩
  · intro faces fo m hm q hq
    unfold polyFacesEntry at hq
    obtain ⟨p, hp, rfl⟩ := List.mem_map.mp hq
    exact ⟨p.1, p.2, rfl,
      fun cf hcf => build_faces_of_cells_spec faces fo m hm p hp cf hcf⟩
  · intro conn offs tcode mt start end_ st st' h
    exact (processVarRun_spec conn offs tcode mt start end_ st st' h).1

/-- A polygon tag never passes the ten-character polyhedron prefix test:
the fifth characters already differ. -/
theorem take10_ne_polyhedron (s : String) :
    ("polygon" ++ s).data.take 10 ≠ "polyhedron".data := by
  intro h
  have h4 := congrArg (fun l => l.getD 4 'x') h
  simp only at h4
  rw [String.data_append] at h4
  have hpd : "polygon".data = ['p', 'o', 'l', 'y', 'g', 'o', 'n'] := rfl
  rw [hpd] at h4
  simp [List.getD] at h4

/-- No fixed shape name of the cell-type table passes the polyhedron
prefix test. -/
theorem table_name_not_poly (t : Int) (mt : String)
    (htab : aGet vtk_to_meshio_type t = some mt)
    (hp1 : mt ≠ "polygon") (hp2 : mt ≠ "polyhedron") :
    mt.data.take 10 ≠ "polyhedron".data := by
  have hmem := aGet_mem _ _ _ htab
  simp only [vtk_to_meshio_type, List.mem_cons, List.not_mem_nil, or_false,
    Prod.mk.injEq] at hmem
  rcases hmem with ⟨_, rfl⟩ | ⟨_, rfl⟩ | ⟨_, rfl⟩ | ⟨_, rfl⟩ | ⟨_, rfl⟩ |
    ⟨_, rfl⟩ | ⟨_, rfl⟩ | ⟨_, rfl⟩ <;>
    first
      | decide
      | exact absurd rfl hp1
      | exact absurd rfl hp2
/-- One run preserves the reserved-entry invariant: the polyhedron flag
tracks the presence of the reserved mapping, and while the flag is down no
emitted block carries a polyhedron-prefixed tag. -/
theorem processRun_inv (conn offs ts : List Int) (st st' : RunState)
    (se : Nat × Nat)
    (hinv1 : st.hasPolyhedron = st.polyFaces.isSome)
    (hinv2 : st.hasPolyhedron = false →
      ∀ blk ∈ st.cells, blk.type.data.take 10 ≠ "polyhedron".data)
    (h : processRun conn offs ts st se = .ok st') :
    st'.hasPolyhedron = st'.polyFaces.isSome ∧
    (st'.hasPolyhedron = false →
      ∀ blk ∈ st'.cells, blk.type.data.take 10 ≠ "polyhedron".data) := by
  unfold processRun at h
  obtain ⟨tcode, _hidx, h⟩ := except_bind_ok h
  cases htab : aGet vtk_to_meshio_type tcode with
  | none =>
      simp only [htab] at h
      simp at h
  | some mt =>
      simp only [htab] at h
      by_cases hpoly : mt = "polygon" ∨ mt = "polyhedron"
      · rw [if_pos hpoly] at h
        by_cases hph : mt = "polyhedron"
        · rw [if_pos hph] at h
          obtain ⟨⟨fcs, fo, st1⟩, _hpop, h⟩ := except_bind_ok h
          obtain ⟨fb, _hfb, h⟩ := except_bind_ok h
          obtain ⟨sty, hy, h⟩ := except_bind_ok h
          cases hy
          obtain ⟨⟨fn, hc⟩, hp, hh⟩ :=
            processVarRun_spec conn offs tcode mt se.1 se.2 _ st' h
          constructor
          · rw [hh, hp]
            rfl
          · intro habs
            rw [hh] at habs
            simp at habs
        · rw [if_neg hph] at h
          have hpg : mt = "polygon" := by tauto
          obtain ⟨stx, hx, h⟩ := except_bind_ok h
          cases hx
          obtain ⟨⟨fn, hc⟩, hp, hh⟩ :=
            processVarRun_spec conn offs tcode mt se.1 se.2 st st' h
          refine ⟨by rw [hh, hp, hinv1], ?_⟩
          intro hfalse blk hblk
          have hbt : blk.type ∈ st'.cells.map CellBlock.type :=
            List.mem_map_of_mem _ hblk
          rw [hc] at hbt
          rcases List.mem_append.mp hbt with hold | hnew
          · obtain ⟨blk0, hblk0, hbeq⟩ := List.mem_map.mp hold
            rw [← hbeq]
            exact hinv2 (by rw [← hh, hfalse]) blk0 hblk0
          · obtain ⟨sz, _hsz, hbeq⟩ := List.mem_map.mp hnew
            rw [← hbeq, hpg]
            exact take10_ne_polyhedron (toString sz)
      · rw [if_neg hpoly] at h
        push_neg at hpoly
        obtain ⟨⟨rows, hc⟩, hp, hh⟩ :=
          processFixedRun_spec conn offs tcode mt se.1 se.2 st st' h
        refine ⟨by rw [hh, hp, hinv1], ?_⟩
        intro hfalse blk hblk
        rw [hc] at hblk
        rcases List.mem_append.mp hblk with hold | hnew
        · exact hinv2 (by rw [← hh, hfalse]) blk hold
        · rcases List.mem_singleton.mp hnew with rfl
          exact table_name_not_poly tcode mt htab hpoly.1 hpoly.2

/-- The whole run loop preserves the reserved-entry invariant. -/
theorem foldlM_processRun_inv (conn offs ts : List Int) :
    ∀ (pairs : List (Nat × Nat)) (st st' : RunState),
      st.hasPolyhedron = st.polyFaces.isSome →
      (st.hasPolyhedron = false →
        ∀ blk ∈ st.cells, blk.type.data.take 10 ≠ "polyhedron".data) →
      pairs.foldlM (processRun conn offs ts) st = .ok st' →
      st'.hasPolyhedron = st'.polyFaces.isSome ∧
      (st'.hasPolyhedron = false →
        ∀ blk ∈ st'.cells, blk.type.data.take 10 ≠ "polyhedron".data) := by
  intro pairs
  induction pairs with
  | nil =>
      intro st st' h1 h2 hm
      simp only [List.foldlM_nil] at hm
      cases hm
      exact ⟨h1, h2⟩
  | cons se rest ih =>
      intro st st' h1 h2 hm
      simp only [List.foldlM_cons] at hm
      obtain ⟨st1, hstep, hrest⟩ := except_bind_ok hm
      obtain ⟨h1', h2'⟩ := processRun_inv conn offs ts st st1 se h1 h2 hstep
      exact ih st1 st' h1' h2' hrest
/-- Unfolding step of the padding loop. -/
theorem padPolyFaces_cons (c : CellBlock) (rest : List CellBlock)
    (m : AList String (Option Faces)) :
    padPolyFaces (c :: rest) m =
      padPolyFaces rest
        (if c.type.data.take 10 ≠ "polyhedron".data then aSet m c.type none
         else m) := rfl

/-- Padding never overwrites an explicit None entry with anything else. -/
theorem padPolyFaces_preserves_none (cells : List CellBlock)
    (m : AList String (Option Faces)) (k : String)
    (h : aGet m k = some none) : aGet (padPolyFaces cells m) k = some none := by
  induction cells generalizing m with
  | nil => exact h
  | cons c rest ih =>
      rw [padPolyFaces_cons]
      apply ih
      by_cases hct : c.type.data.take 10 ≠ "polyhedron".data
      · rw [if_pos hct]
        by_cases hk : c.type = k
        · rw [hk, aGet_aSet_self]
        · rw [aGet_aSet_ne _ _ _ _ hk, h]
      · rw [if_neg hct, h]

/-- After padding, every non-polyhedron block tag maps to an explicit
None. -/
theorem padPolyFaces_covers (cells : List CellBlock)
    (m : AList String (Option Faces)) :
    ∀ blk ∈ cells, blk.type.data.take 10 ≠ "polyhedron".data →
      aGet (padPolyFaces cells m) blk.type = some none := by
  induction cells generalizing m with
  | nil => intro blk hb; simp at hb
  | cons c rest ih =>
      intro blk hb hnp
      rw [padPolyFaces_cons]
      rcases List.mem_cons.mp hb with rfl | hb
      · rw [if_pos hnp]
        exact padPolyFaces_preserves_none rest _ _ (aGet_aSet_self _ _ _)
      · exact ih _ blk hb hnp

/-- Inserting into the unique-sorted list never yields the empty list. -/
theorem sortedInsert_ne_nil (x : Int) (l : List Int) : sortedInsert x l ≠ [] := by
  cases l with
  | nil => simp [sortedInsert]
  | cons y ys =>
      unfold sortedInsert
      split
      · simp
      · split <;> simp

/-- numpy.unique of a nonempty array is nonempty. -/
theorem npUnique_ne_nil (l : List Int) (h : l ≠ []) : npUnique l ≠ [] := by
  cases l with
  | nil => exact absurd rfl h
  | cons x xs =>
      show sortedInsert x (npUnique xs) ≠ []
      exact sortedInsert_ne_nil _ _

/-- The run boundaries of a nonempty type array are strictly increasing:
0, then the change positions (strictly between 0 and the length), then the
length. -/
theorem runBoundaries_pairwise (ts : List Int) (h0 : ts ≠ []) :
    (runBoundaries ts).Pairwise (· < ·) := by
  have hlen : 0 < ts.length := List.length_pos.mpr h0
  unfold runBoundaries
  have hF : ((List.range (ts.length - 1)).filter
      (fun i => decide (ts.getD i 0 ≠ ts.getD (i + 1) 0))).Pairwise (· < ·) :=
    (List.pairwise_lt_range _).filter _
  have hFlt : ∀ x ∈ (List.range (ts.length - 1)).filter
      (fun i => decide (ts.getD i 0 ≠ ts.getD (i + 1) 0)), x < ts.length - 1 := by
    intro x hx
    have hm := List.mem_of_mem_filter hx
    rwa [List.mem_range] at hm
  apply List.pairwise_cons.mpr
  constructor
  · intro y hy
    rcases List.mem_append.mp hy with hy1 | hy2
    · obtain ⟨x, hx, rfl⟩ := List.mem_map.mp hy1
      omega
    · rcases List.mem_singleton.mp hy2 with rfl
      omega
  · apply List.pairwise_append.mpr
    refine ⟨?_, ?_, ?_⟩
    · rw [List.pairwise_map]
      exact hF.imp (by intro a b hab; omega)
    · simp
    · intro x hx y hy
      obtain ⟨x0, hx0, rfl⟩ := List.mem_map.mp hx
      rcases List.mem_singleton.mp hy with rfl
      have := hFlt x0 hx0
      omega

/-- In a strictly increasing list every zipped (element, successor) pair is
strictly increasing. -/
theorem zip_tail_lt : ∀ (l : List Nat), l.Pairwise (· < ·) →
    ∀ p ∈ l.zip l.tail, p.1 < p.2 := by
  intro l
  induction l with
  | nil => intro _ p hp; cases hp
  | cons a rest ih =>
      intro h p hp
      cases rest with
      | nil => cases hp
      | cons b rest2 =>
          rw [show (a :: b :: rest2).tail = b :: rest2 from rfl,
            List.zip_cons_cons] at hp
          rcases List.mem_cons.mp hp with rfl | hp2
          · exact (List.pairwise_cons.mp h).1 b (by simp)
          · exact ih (List.pairwise_cons.mp h).2 p hp2

/-- Every (start, end) run pair of a nonempty type array is a nonempty
half-open range. -/
theorem runPairs_lt (ts : List Int) (h0 : ts ≠ []) :
    ∀ se ∈ runPairs ts, se.1 < se.2 := by
  unfold runPairs
  exact zip_tail_lt _ (runBoundaries_pairwise ts h0)

/-- One run preserves the emission invariant: once the reserved mapping is
present, some emitted block carries a polyhedron-prefixed tag (a polyhedron
run over a nonempty cell range emits at least one block, since the
diff-of-offsets size list is nonempty and numpy.unique keeps it so). -/
theorem processRun_poly_step (conn offs ts : List Int) (st st' : RunState)
    (se : Nat × Nat)
    (hlen : offs.length = ts.length)
    (hse : se.1 < se.2)
    (h : processRun conn offs ts st se = .ok st')
    (hinv : st.polyFaces = none ∨
      ∃ blk ∈ st.cells, blk.type.data.take 10 = "polyhedron".data) :
    st'.polyFaces = none ∨
      ∃ blk ∈ st'.cells, blk.type.data.take 10 = "polyhedron".data := by
  unfold processRun at h
  obtain ⟨tcode, hidx, h⟩ := except_bind_ok h
  obtain ⟨hslt, _⟩ := pyIndex_nat_ok ts se.1 tcode hidx
  cases htab : aGet vtk_to_meshio_type tcode with
  | none =>
      simp only [htab] at h
      simp at h
  | some mt =>
      simp only [htab] at h
      by_cases hpoly : mt = "polygon" ∨ mt = "polyhedron"
      · rw [if_pos hpoly] at h
        by_cases hph : mt = "polyhedron"
        · rw [if_pos hph] at h
          obtain ⟨⟨fcs, fo, st1⟩, _hpop, h⟩ := except_bind_ok h
          obtain ⟨fb, _hfb, h⟩ := except_bind_ok h
          obtain ⟨sty, hy, h⟩ := except_bind_ok h
          cases hy
          obtain ⟨fn, hc⟩ :=
            (processVarRun_spec conn offs tcode mt se.1 se.2 _ st' h).1
          have hslice : (offs.drop se.1).take (se.2 - se.1) ≠ [] := by
            intro habs
            have hl := congrArg List.length habs
            rw [List.length_take, List.length_drop, hlen] at hl
            simp only [List.length_nil] at hl
            omega
          have hdiff : npDiff (fn :: (offs.drop se.1).take (se.2 - se.1)) ≠ [] := by
            cases hs : (offs.drop se.1).take (se.2 - se.1) with
            | nil => exact absurd hs hslice
            | cons a rest => simp [npDiff]
          have hnu := npUnique_ne_nil _ hdiff
          cases hnuc : npUnique (npDiff
              (fn :: (offs.drop se.1).take (se.2 - se.1))) with
          | nil => exact absurd hnuc hnu
          | cons sz szs =>
              right
              have htag : (mt ++ toString sz) ∈ st'.cells.map CellBlock.type := by
                rw [hc, hnuc]
                simp
              obtain ⟨blk, hblk, hbeq⟩ := List.mem_map.mp htag
              refine ⟨blk, hblk, ?_⟩
              show blk.type.data.take 10 = _
              rw [hbeq, hph, String.data_append]
              have h10 := List.take_left "polyhedron".data (toString sz).data
              rwa [show ("polyhedron".data).length = 10 from rfl] at h10
        · rw [if_neg hph] at h
          obtain ⟨stx, hx, h⟩ := except_bind_ok h
          cases hx
          obtain ⟨⟨fn, hc⟩, hp, _⟩ :=
            processVarRun_spec conn offs tcode mt se.1 se.2 st st' h
          rcases hinv with hnone | ⟨blk, hblk, hbp⟩
          · left
            rw [hp, hnone]
          · right
            have hmem : blk.type ∈ st'.cells.map CellBlock.type := by
              rw [hc]
              exact List.mem_append_left _ (List.mem_map_of_mem _ hblk)
            obtain ⟨blk', hblk', hbeq⟩ := List.mem_map.mp hmem
            exact ⟨blk', hblk', by rw [show blk'.type = blk.type from hbeq]; exact hbp⟩
      · rw [if_neg hpoly] at h
        obtain ⟨⟨rows, hc⟩, hp, _⟩ :=
          processFixedRun_spec conn offs tcode mt se.1 se.2 st st' h
        rcases hinv with hnone | ⟨blk, hblk, hbp⟩
        · left
          rw [hp, hnone]
        · right
          exact ⟨blk, by rw [hc]; exact List.mem_append_left _ hblk, hbp⟩

/-- The whole run loop preserves the emission invariant over nonempty run
pairs. -/
theorem foldlM_processRun_poly (conn offs ts : List Int)
    (hlen : offs.length = ts.length) :
    ∀ (pairs : List (Nat × Nat)) (st st' : RunState),
      (∀ se ∈ pairs, se.1 < se.2) →
      (st.polyFaces = none ∨
        ∃ blk ∈ st.cells, blk.type.data.take 10 = "polyhedron".data) →
      pairs.foldlM (processRun conn offs ts) st = .ok st' →
      st'.polyFaces = none ∨
        ∃ blk ∈ st'.cells, blk.type.data.take 10 = "polyhedron".data := by
  intro pairs
  induction pairs with
  | nil =>
      intro st st' _ hinv hm
      simp only [List.foldlM_nil] at hm
      cases hm
      exact hinv
  | cons se rest ih =>
      intro st st' hse hinv hm
      simp only [List.foldlM_cons] at hm
      obtain ⟨st1, hstep, hrest⟩ := except_bind_ok hm
      exact ih st1 st' (fun x hx => hse x (by simp [hx]))
        (processRun_poly_step conn offs ts st st1 se hlen (hse se (by simp)) hstep hinv)
        hrest

/-- Claim C9 amended: the reserved face-list entry is present exactly when
a polyhedron-tagged block was emitted - when the result carries no entry no
emitted block is polyhedron-tagged, and when it carries one some emitted
block is (every run spans at least one cell, so a polyhedron run always
emits a block); moreover, with the entry present, every emitted
non-polyhedron block's tag maps to an explicit None entry, making the
key's presence uniform across the non-polyhedron blocks; the polyhedron
blocks' own tags are covered only when each cell's connectivity size
equals its distinct-node count (see the C9 counterexample). -/
theorem claim_C9_amended (conn offs ts : List Int)
    (cdr : AList String (List Int)) (out : CellsOut)
    (h : _cells_from_data conn offs ts cdr = .ok out) :
    (out.polyFaces = none →
      ∀ blk ∈ out.cells, blk.type.data.take 10 ≠ "polyhedron".data) ∧
    (∀ m, out.polyFaces = some m →
      ∀ blk ∈ out.cells, blk.type.data.take 10 ≠ "polyhedron".data →
        aGet m blk.type = some none) ∧
    (∀ m, out.polyFaces = some m →
      ∃ blk ∈ out.cells, blk.type.data.take 10 = "polyhedron".data) := by
  unfold _cells_from_data at h
  split at h
  · cases h
  · rename_i hlens
    obtain ⟨st, hfold, hfin⟩ := except_bind_ok h
    obtain ⟨hi1, hi2⟩ := foldlM_processRun_inv conn offs ts (runPairs ts) _ st
      rfl (by intro _ blk hb; simp at hb) hfold
    have hts : ts ≠ [] := by
      intro habs
      subst habs
      have hrp : runPairs ([] : List Int) = [(0, 0)] := rfl
      rw [hrp] at hfold
      simp only [List.foldlM_cons] at hfold
      have hpr : ∀ st0 : RunState,
          processRun conn offs [] st0 (0, 0) = .error .indexError :=
        fun st0 => rfl
      rw [hpr] at hfold
      simp [bind, Except.bind] at hfold
    have hpoly := foldlM_processRun_poly conn offs ts
      (by omega) (runPairs ts) _ st (runPairs_lt ts hts) (Or.inl rfl) hfold
    by_cases hhp : st.hasPolyhedron = true
    · rw [if_pos hhp] at hfin
      cases hm0 : st.polyFaces with
      | none =>
          rw [hm0] at hi1
          rw [hhp] at hi1
          simp at hi1
      | some m0 =>
          rw [hm0] at hfin
          cases hfin
          refine ⟨?_, ?_, ?_⟩
          · intro habs
            simp at habs
          · intro m hm blk hb hnp
            simp only [Option.some.injEq] at hm
            rw [← hm]
            exact padPolyFaces_covers st.cells m0 blk hb hnp
          · intro m _
            rcases hpoly with hnone | hex
            · rw [hm0] at hnone
              cases hnone
            · exact hex
    · rw [if_neg hhp] at hfin
      cases hfin
      have hfalse : st.hasPolyhedron = false := by
        cases hb : st.hasPolyhedron
        · rfl
        · exact absurd hb hhp
      have hnone : st.polyFaces = none := by
        cases hpf : st.polyFaces with
        | none => rfl
        | some m0 =>
            rw [hpf] at hi1
            rw [hfalse] at hi1
            simp at hi1
      refine ⟨?_, ?_, ?_⟩
      · intro _
        exact hi2 hfalse
      · intro m hm
        rw [hnone] at hm
        cases hm
      · intro m hm
        rw [hnone] at hm
        cases hm

/-- Claim C9 witness: in a grid with one triangle run followed by one
consistent polyhedron run, the reserved mapping gives the triangle block
an explicit None entry. -/
theorem claim_C9_amended_witness :
    aGet [("polyhedron4",
        some [[[0, 1, 2], [0, 1, 3], [0, 2, 3], [1, 2, 3]]]),
      ("triangle", (none : Option Faces))] "triangle" = some none :=
  (claim_C9_amended [0, 1, 2, 0, 1, 2, 3] [3, 7] [5, 42]
      [("faces", [4, 3, 0, 1, 2, 3, 0, 1, 3, 3, 0, 2, 3, 3, 1, 2, 3]),
       ("faceoffsets", [17])]
      ⟨[⟨"triangle", [[0, 1, 2]]⟩, ⟨"polyhedron4", [[0, 1, 2, 3]]⟩],
       [("faces", [[4]]), ("faceoffsets", [[17]])],
       some [("polyhedron4",
          some [[[0, 1, 2], [0, 1, 3], [0, 2, 3], [1, 2, 3]]]),
         ("triangle", none)]⟩ (by decide)).2.1
    _ rfl ⟨"triangle", [[0, 1, 2]]⟩ (by decide) (by decide)

theorem mapM_eq_ok {α β : Type} (l : List α) (f : α → Except PyErr β)
    (g : α → β) (h : ∀ x ∈ l, f x = .ok (g x)) : l.mapM f = .ok (l.map g) := by
  induction l with
  | nil => rfl
  | cons a rest ih =>
      rw [List.mapM_cons, h a (by simp), ih (fun x hx => h x (by simp [hx]))]
      rfl

theorem range_map_getD {α : Type} (l : List α) (d : α) :
    (List.range l.length).map (fun i => l.getD i d) = l := by
  apply List.ext_getElem
  · simp
  · intro i h1 h2
    simp [List.getD_eq_getElem?_getD, List.getElem?_eq_getElem h2]

theorem getD_append_lt {α : Type} (l r : List α) (k : Nat) (d : α)
    (h : k < l.length) : (l ++ r).getD k d = l.getD k d := by
  simp [List.getD_eq_getElem?_getD, List.getElem?_append, h]

theorem getD_append_right_ge {α : Type} (l r : List α) (k : Nat) (d : α) :
    (l ++ r).getD (l.length + k) d = r.getD k d := by
  simp [List.getD_eq_getElem?_getD, List.getElem?_append_right (Nat.le_add_right _ _)]

theorem pyIndex_nat_eval (l : List Int) (k : Nat) (hk : k < l.length) :
    pyIndex l (k : Int) = .ok (l.getD k 0) := by
  unfold pyIndex
  have hnn : ¬((k : Int) < 0) := by omega
  simp only [hnn, if_false, ite_false]
  rw [if_pos (by constructor <;> omega)]
  simp

theorem flatten_getD_uniform (rows : List (List Int)) (c : Nat)
    (hrect : ∀ row ∈ rows, row.length = c) (i j : Nat)
    (hi : i < rows.length) (hj : j < c) :
    rows.flatten.getD (c * i + j) 0 = (rows.getD i []).getD j 0 := by
  induction rows generalizing i with
  | nil => simp at hi
  | cons r rest ih =>
      cases i with
      | zero =>
          simp only [List.flatten_cons, Nat.mul_zero, Nat.zero_add, List.getD_cons_zero]
          exact getD_append_lt r rest.flatten j 0 (by rw [hrect r (by simp)]; exact hj)
      | succ i' =>
          have hr : r.length = c := hrect r (by simp)
          have harith : c * (i' + 1) + j = r.length + (c * i' + j) := by
            rw [hr]; ring
          simp only [List.flatten_cons, harith, List.getD_cons_succ]
          rw [getD_append_right_ge]
          exact ih (fun row hrow => hrect row (by simp [hrow])) i'
            (by simpa using hi)

theorem flatten_drop_take (parts : List (List Int)) (k : Nat)
    (hk : k < parts.length) :
    ((parts.flatten.drop (((parts.take k).map List.length).sum)).take
      (parts.getD k []).length) = parts.getD k [] := by
  induction parts generalizing k with
  | nil => simp at hk
  | cons p rest ih =>
      cases k with
      | zero =>
          simp only [List.take_zero, List.map_nil, List.sum_nil, List.drop_zero,
            List.getD_cons_zero, List.flatten_cons]
          exact List.take_left p rest.flatten
      | succ k' =>
          simp only [List.take_succ_cons, List.map_cons, List.sum_cons,
            List.getD_cons_succ, List.flatten_cons]
          rw [List.drop_append]
          exact ih k' (by simpa using hk)
theorem fixedBlockOk_spec (b : MBlock) (h : fixedBlockOk b = true) :
    b.data ≠ [] ∧ (∀ row ∈ b.data, row.length = b.cols) ∧
    b.type.data.take 7 ≠ "polygon".data ∧
    b.type.data.take 10 ≠ "polyhedron".data ∧
    ∃ code, aGet meshio_to_vtk_type b.type = some code ∧
      aGet vtk_to_meshio_type code = some b.type ∧
      aGet num_nodes_per_cell b.type = some b.cols := by
  unfold fixedBlockOk at h
  cases htab : aGet meshio_to_vtk_type b.type with
  | none => rw [htab] at h; simp at h
  | some code =>
      rw [htab] at h
      simp only [Bool.and_eq_true, Bool.not_eq_true', List.all_eq_true,
        beq_iff_eq, beq_eq_false_iff_ne, List.isEmpty_eq_false, ne_eq] at h
      obtain ⟨⟨⟨⟨h1, h2⟩, h3⟩, h4⟩, h5, h6⟩ := h
      exact ⟨h1, h2, h3, h4, code, rfl, h5, h6⟩
theorem write_connectivity_append (xs ys : List MBlock) :
    write_connectivity (xs ++ ys) =
      write_connectivity xs ++ write_connectivity ys := by
  simp [write_connectivity]

theorem write_connectivity_length (xs : List MBlock)
    (h : ∀ b ∈ xs, ∀ row ∈ b.data, row.length = b.cols) :
    (write_connectivity xs).length = connLenOf xs := by
  simp only [write_connectivity, connLenOf, List.length_flatten, List.map_map]
  congr 1
  apply List.map_congr_left
  intro b hb
  show b.data.flatten.length = b.cols * b.data.length
  rw [List.length_flatten]
  have : b.data.map List.length = b.data.map (fun _ => b.cols) := by
    apply List.map_congr_left
    intro row hrow
    exact h b hb row hrow
  rw [this]
  simp [List.map_const', mul_comm]

theorem write_offsets_append (base : Nat) (xs ys : List MBlock) :
    write_offsets base (xs ++ ys) =
      write_offsets base xs ++ write_offsets (base + connLenOf xs) ys := by
  induction xs generalizing base with
  | nil => simp [write_offsets, connLenOf]
  | cons b rest ih =>
      have hc : connLenOf (b :: rest) = b.cols * b.data.length + connLenOf rest := by
        simp [connLenOf]
      rw [List.cons_append, write_offsets, write_offsets, ih, hc,
        List.append_assoc, Nat.add_assoc]

theorem write_offsets_length (base : Nat) (xs : List MBlock) :
    (write_offsets base xs).length = rowsOf xs := by
  induction xs generalizing base with
  | nil => rfl
  | cons b rest ih =>
      simp [write_offsets, ih, rowsOf]

theorem typesList_append (xs ys : List MBlock) :
    typesList (xs ++ ys) = typesList xs ++ typesList ys := by
  simp [typesList]

theorem typesList_length (xs : List MBlock) :
    (typesList xs).length = rowsOf xs := by
  induction xs with
  | nil => rfl
  | cons b rest ih => simp [typesList, rowsOf] at ih ⊢; omega

theorem write_types_eq (blocks : List MBlock)
    (h : ∀ b ∈ blocks, fixedBlockOk b = true) :
    write_types blocks = .ok (typesList blocks) := by
  unfold write_types
  rw [mapM_eq_ok _ _
    (fun b => List.replicate b.data.length ((aGet meshio_to_vtk_type b.type).getD 0))
    (by
      intro b hb
      obtain ⟨_, _, h3, h4, code, htab, _, _⟩ := fixedBlockOk_spec b (h b hb)
      simp [if_neg h3, if_neg h4, bind, Except.bind, htab])]
  rfl
theorem getD_replicate_lt (n : Nat) (c : Int) (i : Nat) (h : i < n) :
    (List.replicate n c).getD i 0 = c := by
  induction n generalizing i with
  | zero => omega
  | succ n ih =>
      cases i with
      | zero => simp [List.replicate]
      | succ i' => simp only [List.replicate, List.getD_cons_succ]; exact ih i' (by omega)

theorem typesList_cons (b : MBlock) (rest : List MBlock) :
    typesList (b :: rest) =
      List.replicate b.data.length ((aGet meshio_to_vtk_type b.type).getD 0) ++
        typesList rest := by
  simp [typesList]

theorem runBoundaries_def (ts : List Int) :
    runBoundaries ts =
      0 :: (((List.range (ts.length - 1)).filter
          (fun i => decide (ts.getD i 0 ≠ ts.getD (i + 1) 0))).map (· + 1) ++
        [ts.length]) := rfl

theorem changes_typesList : ∀ (blocks : List MBlock),
    (∀ b ∈ blocks, b.data ≠ []) → adjacentDistinct blocks = true →
    ((List.range ((typesList blocks).length - 1)).filter
        (fun i => decide ((typesList blocks).getD i 0 ≠ (typesList blocks).getD (i + 1) 0))).map
      (· + 1) = innerBounds blocks := by
  intro blocks
  induction blocks with
  | nil => intro _ _; simp [typesList, innerBounds]
  | cons b rest ih =>
      intro hne hadj
      cases rest with
      | nil =>
          set c := (aGet meshio_to_vtk_type b.type).getD 0 with hc
          have hts : typesList [b] = List.replicate b.data.length c := by
            simp [typesList]
          rw [hts]
          have hflt : (List.range ((List.replicate b.data.length c).length - 1)).filter
              (fun i => decide ((List.replicate b.data.length c).getD i 0 ≠
                (List.replicate b.data.length c).getD (i + 1) 0)) = [] := by
            apply List.filter_eq_nil_iff.mpr
            intro i hi
            rw [List.mem_range, List.length_replicate] at hi
            rw [getD_replicate_lt _ _ _ (by omega), getD_replicate_lt _ _ _ (by omega)]
            simp
          rw [hflt]
          simp [innerBounds]
      | cons b2 rest2 =>
          set c := (aGet meshio_to_vtk_type b.type).getD 0 with hc
          set c2 := (aGet meshio_to_vtk_type b2.type).getD 0 with hc2
          set n := b.data.length with hn
          set ts' := typesList (b2 :: rest2) with hts'
          set m := ts'.length with hm
          have hn1 : 1 ≤ n := by
            have := hne b (by simp)
            rw [hn]
            cases hdata : b.data with
            | nil => exact absurd hdata this
            | cons _ _ => simp
          have hm1 : 1 ≤ m := by
            have hb2 : b2.data ≠ [] := hne b2 (by simp)
            rw [hm, hts', typesList_cons, List.length_append, List.length_replicate]
            cases hdata : b2.data with
            | nil => exact absurd hdata hb2
            | cons _ _ => simp [hdata]; omega
          have hts : typesList (b :: b2 :: rest2) = List.replicate n c ++ ts' := by
            rw [typesList_cons]
          have hcc2 : c ≠ c2 := by
            unfold adjacentDistinct at hadj
            simp only [Bool.and_eq_true, decide_eq_true_eq] at hadj
            exact hadj.1
          have hlen : (typesList (b :: b2 :: rest2)).length = n + m := by
            rw [hts, List.length_append, List.length_replicate]
          have hts'0 : ts'.getD 0 0 = c2 := by
            rw [hts', typesList_cons]
            have hb2 : 1 ≤ b2.data.length := by
              have := hne b2 (by simp)
              cases hdata : b2.data with
              | nil => exact absurd hdata this
              | cons _ _ => simp
            rw [getD_append_lt _ _ _ _ (by simp; omega)]
            exact getD_replicate_lt _ _ _ (by omega)
          have hgetlo : ∀ i < n, (typesList (b :: b2 :: rest2)).getD i 0 = c := by
            intro i hi
            rw [hts, getD_append_lt _ _ _ _ (by simp [hi]), getD_replicate_lt _ _ _ hi]
          have hgethi : ∀ j, (typesList (b :: b2 :: rest2)).getD (n + j) 0 = ts'.getD j 0 := by
            intro j
            rw [hts]
            have h0 := getD_append_right_ge (List.replicate n c) ts' j 0
            rwa [List.length_replicate] at h0
          rw [hlen]
          have hsplit : n + m - 1 = n + (m - 1) := by omega
          rw [hsplit, List.range_add, List.filter_append]
          have hfirst : (List.range n).filter
              (fun i => decide ((typesList (b :: b2 :: rest2)).getD i 0 ≠
                (typesList (b :: b2 :: rest2)).getD (i + 1) 0)) = [n - 1] := by
            have hrn : List.range n = List.range (n - 1) ++ [n - 1] := by
              conv_lhs => rw [show n = (n - 1) + 1 by omega]
              exact List.range_succ _
            rw [hrn, List.filter_append]
            have h1 : (List.range (n - 1)).filter
                (fun i => decide ((typesList (b :: b2 :: rest2)).getD i 0 ≠
                  (typesList (b :: b2 :: rest2)).getD (i + 1) 0)) = [] := by
              apply List.filter_eq_nil_iff.mpr
              intro i hi
              rw [List.mem_range] at hi
              rw [hgetlo i (by omega), hgetlo (i + 1) (by omega)]
              simp
            have h2 : (typesList (b :: b2 :: rest2)).getD (n - 1) 0 = c :=
              hgetlo (n - 1) (by omega)
            have h3 : (typesList (b :: b2 :: rest2)).getD n 0 = c2 := by
              have := hgethi 0
              rw [Nat.add_zero] at this
              rw [this, hts'0]
            rw [h1]
            simp only [List.nil_append, List.filter_cons]
            rw [show n - 1 + 1 = n by omega, h2, h3]
            simp [hcc2]
          rw [hfirst, List.filter_map]
          have hcong : (List.range (m - 1)).filter
              ((fun i => decide ((typesList (b :: b2 :: rest2)).getD i 0 ≠
                  (typesList (b :: b2 :: rest2)).getD (i + 1) 0)) ∘ (n + ·)) =
              (List.range (m - 1)).filter
                (fun j => decide (ts'.getD j 0 ≠ ts'.getD (j + 1) 0)) := by
            apply List.filter_congr
            intro j _
            simp only [Function.comp_apply]
            rw [hgethi j, show n + j + 1 = n + (j + 1) by omega, hgethi (j + 1)]
          rw [hcong]
          have hih := ih (fun x hx => hne x (by simp [hx])) (by
            unfold adjacentDistinct at hadj
            simp only [Bool.and_eq_true] at hadj
            exact hadj.2)
          rw [List.map_append, List.map_map]
          have hmap2 : ((List.range (m - 1)).filter
              (fun j => decide (ts'.getD j 0 ≠ ts'.getD (j + 1) 0))).map ((· + 1) ∘ (n + ·)) =
              (((List.range (m - 1)).filter
                (fun j => decide (ts'.getD j 0 ≠ ts'.getD (j + 1) 0))).map (· + 1)).map
                (· + n) := by
            rw [List.map_map]
            apply List.map_congr_left
            intro x _
            simp only [Function.comp_apply]
            omega
          rw [hmap2, hih]
          show [n - 1 + 1] ++ (innerBounds (b2 :: rest2)).map (· + n) = innerBounds (b :: b2 :: rest2)
          rw [show n - 1 + 1 = n by omega]
          rfl
theorem boundList_eq : ∀ (blocks : List MBlock), blocks ≠ [] → ∀ (start : Nat),
    boundList start blocks =
      start :: ((innerBounds blocks).map (· + start) ++ [rowsOf blocks + start]) := by
  intro blocks
  induction blocks with
  | nil => intro h; exact absurd rfl h
  | cons b rest ih =>
      intro _ start
      cases rest with
      | nil =>
          show [start, start + b.data.length] = _
          simp [innerBounds, rowsOf]
          omega
      | cons b2 rest2 =>
          show start :: boundList (start + b.data.length) (b2 :: rest2) = _
          rw [ih (by simp) (start + b.data.length)]
          show _ = start :: ((b.data.length :: (innerBounds (b2 :: rest2)).map
            (· + b.data.length)).map (· + start) ++ [rowsOf (b :: b2 :: rest2) + start])
          simp only [List.map_cons, List.map_map, List.cons_append, List.cons.injEq,
            true_and]
          constructor
          · omega
          congr 1
          · apply List.map_congr_left
            intro x _
            simp only [Function.comp_apply]
            omega
          · simp only [List.cons.injEq, and_true]
            simp only [rowsOf, List.map_cons, List.sum_cons]
            omega

theorem runBoundaries_typesList (blocks : List MBlock)
    (hne : ∀ b ∈ blocks, b.data ≠ []) (hadj : adjacentDistinct blocks = true)
    (h0 : blocks ≠ []) :
    runBoundaries (typesList blocks) = boundList 0 blocks := by
  rw [runBoundaries_def, changes_typesList blocks hne hadj, typesList_length,
    boundList_eq blocks h0 0]
  simp

theorem boundList_zip : ∀ (blocks : List MBlock) (start : Nat),
    (boundList start blocks).zip (boundList start blocks).tail =
      blockPairs start blocks := by
  intro blocks
  induction blocks with
  | nil => intro start; rfl
  | cons b rest ih =>
      intro start
      cases rest with
      | nil => rfl
      | cons b2 rest2 =>
          show ((start :: boundList (start + b.data.length) (b2 :: rest2)).zip
            (boundList (start + b.data.length) (b2 :: rest2))) = _
          have hhead : boundList (start + b.data.length) (b2 :: rest2) =
              (start + b.data.length) ::
                boundList (start + b.data.length + b2.data.length) rest2 := rfl
          rw [hhead, List.zip_cons_cons, ← hhead]
          have hih := ih (start + b.data.length)
          rw [hhead] at hih
          show _ = (start, start + b.data.length) :: blockPairs (start + b.data.length) (b2 :: rest2)
          rw [← hih, hhead]
          rfl

theorem runPairs_typesList (blocks : List MBlock)
    (hne : ∀ b ∈ blocks, b.data ≠ []) (hadj : adjacentDistinct blocks = true)
    (h0 : blocks ≠ []) :
    runPairs (typesList blocks) = blockPairs 0 blocks := by
  unfold runPairs
  rw [runBoundaries_typesList blocks hne hadj h0, boundList_zip]
theorem mapM_map_eq_ok {α β γ : Type} (l : List α) (f : α → β)
    (g : β → Except PyErr γ) (r : α → γ)
    (h : ∀ x ∈ l, g (f x) = .ok (r x)) : (l.map f).mapM g = .ok (l.map r) := by
  induction l with
  | nil => rfl
  | cons x xs ih =>
      rw [List.map_cons, List.map_cons, List.mapM_cons, h x (by simp),
        ih (fun y hy => h y (by simp [hy]))]
      rfl

theorem aGet_of_mem_nodup {α β : Type} [DecidableEq α] :
    ∀ (d : AList α β), (d.map Prod.fst).Nodup → ∀ (p : α × β), p ∈ d →
    aGet d p.1 = some p.2 := by
  intro d
  induction d with
  | nil => intro _ p hp; cases hp
  | cons q rest ih =>
      intro hnd p hp
      obtain ⟨qk, qv⟩ := q
      rw [List.map_cons, List.nodup_cons] at hnd
      rcases List.mem_cons.mp hp with h | h
      · subst h; simp [aGet]
      · have hne : qk ≠ p.1 := by
          intro he
          exact hnd.1 (he ▸ (List.mem_map.mpr ⟨p, h, rfl⟩))
        simp only [aGet, if_neg hne]
        exact ih hnd.2 p h

theorem take_succ_getD {α : Type} (l : List α) (k : Nat) (d : α) (h : k < l.length) :
    l.take (k + 1) = l.take k ++ [l.getD k d] := by
  rw [List.take_succ]
  congr 1
  rw [List.getD_eq_getElem?_getD, List.getElem?_eq_getElem h]
  rfl

theorem foldl_appendCellData_ne (v : String × List Int → List Int) :
    ∀ (items : List (String × List Int)) (nm : String),
    (∀ q ∈ items, q.1 ≠ nm) →
    ∀ (hd : List (List Int)) (acc : AList String (List (List Int))),
    items.foldl (fun cd nd => appendCellData cd nd.1 (v nd)) ((nm, hd) :: acc) =
      (nm, hd) :: items.foldl (fun cd nd => appendCellData cd nd.1 (v nd)) acc := by
  intro items
  induction items with
  | nil => intro nm _ hd acc; rfl
  | cons q rest ih =>
      intro nm hne hd acc
      rw [List.foldl_cons, List.foldl_cons]
      have hq : q.1 ≠ nm := hne q (by simp)
      have hstep : appendCellData ((nm, hd) :: acc) q.1 (v q) =
          (nm, hd) :: appendCellData acc q.1 (v q) := by
        simp only [appendCellData, aGet, aSet]
        rw [if_neg (fun h => hq h.symm), if_neg (fun h => hq h.symm)]
      rw [hstep]
      exact ih nm (fun x hx => hne x (by simp [hx])) hd _

theorem foldl_appendCellData_step (v : String × List Int → List Int) :
    ∀ (parts : AList String (List (List Int))) (k : Nat),
    (parts.map Prod.fst).Nodup →
    (∀ p ∈ parts, k < p.2.length) →
    (∀ p ∈ parts, v (p.1, p.2.flatten) = p.2.getD k []) →
    (parts.map (fun p => (p.1, p.2.flatten))).foldl
        (fun cd nd => appendCellData cd nd.1 (v nd)) (cdState k parts) =
      cdState (k + 1) parts := by
  intro parts
  induction parts with
  | nil => intro k _ _ _; simp [cdState]
  | cons p rest ih =>
      intro k hnd hlen hv
      rw [List.map_cons, List.nodup_cons] at hnd
      have hrest_ne : ∀ q ∈ rest.map (fun p => (p.1, p.2.flatten)), q.1 ≠ p.1 := by
        intro q hq he
        obtain ⟨p', hp', hq'⟩ := List.mem_map.mp hq
        apply hnd.1
        rw [← he, ← hq']
        exact List.mem_map.mpr ⟨p', hp', rfl⟩
      have hvp := hv p (by simp)
      have hlenp := hlen p (by simp)
      have htake : p.2.take k ++ [p.2.getD k []] = p.2.take (k + 1) :=
        (take_succ_getD p.2 k [] hlenp).symm
      by_cases hk : k = 0
      · subst hk
        rw [List.map_cons, List.foldl_cons]
        have hstep : appendCellData (cdState 0 (p :: rest)) p.1
            (v (p.1, p.2.flatten)) = (p.1, p.2.take 1) :: ([] : AList String (List (List Int))) := by
          simp only [cdState, ite_true, eq_self_iff_true, appendCellData, aGet, aSet, hvp]
          rw [← htake]
          simp
        rw [hstep, foldl_appendCellData_ne v _ p.1 hrest_ne]
        have hih := ih 0 hnd.2 (fun q hq => hlen q (by simp [hq]))
          (fun q hq => hv q (by simp [hq]))
        rw [show cdState 0 rest = [] from by simp [cdState]] at hih
        rw [hih]
        simp [cdState]
      · rw [List.map_cons, List.foldl_cons]
        have hacc : cdState k (p :: rest) =
            (p.1, p.2.take k) :: rest.map (fun q => (q.1, q.2.take k)) := by
          simp only [cdState, if_neg hk, List.map_cons]
        have hstep : appendCellData ((p.1, p.2.take k) ::
              rest.map (fun q => (q.1, q.2.take k))) p.1 (v (p.1, p.2.flatten)) =
            (p.1, p.2.take (k + 1)) :: rest.map (fun q => (q.1, q.2.take k)) := by
          simp only [appendCellData, aGet, aSet, eq_self_iff_true, ite_true, hvp,
            Option.getD_some]
          rw [htake]
        rw [hacc, hstep, foldl_appendCellData_ne v _ p.1 hrest_ne]
        have hih := ih k hnd.2 (fun q hq => hlen q (by simp [hq]))
          (fun q hq => hv q (by simp [hq]))
        rw [show cdState k rest = rest.map (fun q => (q.1, q.2.take k)) from by
          simp [cdState, hk]] at hih
        rw [hih]
        simp [cdState, hk]

theorem sum_take_lengths : ∀ (P : List MBlock) (pieces : List (List Int)),
    (∀ k, k < P.length → (pieces.getD k []).length = (P.getD k ⟨"", 0, []⟩).data.length) →
    P.length ≤ pieces.length →
    ((pieces.take P.length).map List.length).sum = rowsOf P := by
  intro P
  induction P with
  | nil => intro pieces _ _; simp [rowsOf]
  | cons b rest ih =>
      intro pieces h hle
      cases pieces with
      | nil => simp at hle
      | cons pc prest =>
          rw [List.length_cons, List.take_succ_cons, List.map_cons, List.sum_cons]
          have h0 := h 0 (by simp)
          simp only [List.getD_cons_zero] at h0
          rw [h0]
          rw [ih prest (fun k hk => by
              have hh := h (k + 1) (by simpa using Nat.succ_lt_succ hk)
              simpa using hh)
            (by simpa using hle)]
          simp [rowsOf]
theorem getD_mem {α : Type} (l : List α) (i : Nat) (d : α) (h : i < l.length) :
    l.getD i d ∈ l := by
  rw [List.getD_eq_getElem?_getD, List.getElem?_eq_getElem h]
  simp only [Option.getD_some]
  exact List.getElem_mem h

theorem flatten_length_uniform (rows : List (List Int)) (c : Nat)
    (hrect : ∀ row ∈ rows, row.length = c) :
    rows.flatten.length = c * rows.length := by
  rw [List.length_flatten]
  have hmap : rows.map List.length = rows.map (fun _ => c) :=
    List.map_congr_left (fun row hrow => hrect row hrow)
  rw [hmap]
  simp [List.map_const', mul_comm]

theorem typesList_getD_start (P S : List MBlock) (b : MBlock)
    (hne : b.data ≠ []) :
    (typesList (P ++ b :: S)).getD (rowsOf P) 0 =
      (aGet meshio_to_vtk_type b.type).getD 0 := by
  have hbl : 0 < b.data.length := List.length_pos.mpr hne
  rw [typesList_append]
  have h0 := getD_append_right_ge (typesList P) (typesList (b :: S)) 0 0
  rw [typesList_length] at h0
  rw [show rowsOf P = rowsOf P + 0 from by omega, h0, typesList_cons,
    getD_append_lt _ _ _ _ (by simpa using hbl)]
  exact getD_replicate_lt _ _ _ hbl

theorem conn_split (P S : List MBlock) (b : MBlock) :
    write_connectivity (P ++ b :: S) =
      write_connectivity P ++ (b.data.flatten ++ write_connectivity S) := by
  rw [show P ++ b :: S = P ++ ([b] ++ S) from by simp, write_connectivity_append,
    write_connectivity_append]
  simp [write_connectivity]

theorem conn_getD (P S : List MBlock) (b : MBlock)
    (hrectP : ∀ x ∈ P, ∀ row ∈ x.data, row.length = x.cols)
    (hrect : ∀ row ∈ b.data, row.length = b.cols) (i j : Nat)
    (hi : i < b.data.length) (hj : j < b.cols) :
    (write_connectivity (P ++ b :: S)).getD (connLenOf P + (b.cols * i + j)) 0 =
      (b.data.getD i []).getD j 0 := by
  rw [conn_split]
  have h0 := getD_append_right_ge (write_connectivity P)
    (b.data.flatten ++ write_connectivity S) (b.cols * i + j) 0
  rw [write_connectivity_length P hrectP] at h0
  rw [h0, getD_append_lt _ _ _ _ (by
    rw [flatten_length_uniform b.data b.cols hrect]
    calc b.cols * i + j < b.cols * i + b.cols := by omega
    _ = b.cols * (i + 1) := by ring
    _ ≤ b.cols * b.data.length := Nat.mul_le_mul_left _ (by omega))]
  exact flatten_getD_uniform b.data b.cols hrect i j hi hj

theorem conn_length_ge (P S : List MBlock) (b : MBlock)
    (hrectP : ∀ x ∈ P, ∀ row ∈ x.data, row.length = x.cols)
    (hrect : ∀ row ∈ b.data, row.length = b.cols) :
    connLenOf P + b.cols * b.data.length ≤
      (write_connectivity (P ++ b :: S)).length := by
  rw [conn_split, List.length_append, List.length_append,
    write_connectivity_length P hrectP, flatten_length_uniform b.data b.cols hrect]
  omega

theorem offsets_slice (P S : List MBlock) (b : MBlock) :
    ((write_offsets 0 (P ++ b :: S)).drop (rowsOf P)).take b.data.length =
      (List.range b.data.length).map
        (fun i => ((connLenOf P + b.cols * (i + 1) : Nat) : Int)) := by
  rw [write_offsets_append, Nat.zero_add]
  have hdrop : (write_offsets 0 P ++ write_offsets (connLenOf P) (b :: S)).drop
      (rowsOf P) = write_offsets (connLenOf P) (b :: S) := by
    have h0 := List.drop_left (write_offsets 0 P) (write_offsets (connLenOf P) (b :: S))
    rwa [write_offsets_length] at h0
  rw [hdrop]
  show ((List.range b.data.length).map
      (fun i => ((connLenOf P + b.cols * (i + 1) : Nat) : Int)) ++
    write_offsets (connLenOf P + b.cols * b.data.length) S).take b.data.length = _
  have h1 := List.take_left ((List.range b.data.length).map
      (fun i => ((connLenOf P + b.cols * (i + 1) : Nat) : Int)))
    (write_offsets (connLenOf P + b.cols * b.data.length) S)
  rwa [List.length_map, List.length_range] at h1

theorem vtk_order_eval (tcode : Int) (n : Nat) :
    _vtk_to_meshio_order tcode n = (List.range n).map (fun j : Nat => (j : Int)) := by
  unfold _vtk_to_meshio_order
  simp [List.map_eq_flatMap]

theorem processFixedRun_eval (P S : List MBlock) (b : MBlock) (tcode : Int)
    (hrectP : ∀ x ∈ P, ∀ row ∈ x.data, row.length = x.cols)
    (hrect : ∀ row ∈ b.data, row.length = b.cols)
    (hn : aGet num_nodes_per_cell b.type = some b.cols)
    (st : RunState) :
    processFixedRun (write_connectivity (P ++ b :: S)) (write_offsets 0 (P ++ b :: S))
        tcode b.type (rowsOf P) (rowsOf P + b.data.length) st =
      .ok { st with
        cells := st.cells ++ [⟨b.type, b.data⟩],
        cellData := st.cdr.foldl
          (fun cd nd => appendCellData cd nd.1
            ((nd.2.drop (rowsOf P)).take b.data.length))
          st.cellData } := by
  unfold processFixedRun
  rw [hn]
  simp only [show rowsOf P + b.data.length - rowsOf P = b.data.length from by omega]
  rw [offsets_slice P S b]
  have hrows : ((List.range b.data.length).map
      (fun i => ((connLenOf P + b.cols * (i + 1) : Nat) : Int))).mapM
      (fun o => ((_vtk_to_meshio_order tcode b.cols).map
        (fun j => o + j - (b.cols : Int))).mapM
          (pyIndex (write_connectivity (P ++ b :: S)))) = .ok b.data := by
    have hmain := mapM_map_eq_ok (List.range b.data.length)
      (fun i => ((connLenOf P + b.cols * (i + 1) : Nat) : Int))
      (fun o => ((_vtk_to_meshio_order tcode b.cols).map
        (fun j => o + j - (b.cols : Int))).mapM
          (pyIndex (write_connectivity (P ++ b :: S))))
      (fun i => b.data.getD i [])
      (by
        intro i hi
        rw [List.mem_range] at hi
        simp only []
        rw [vtk_order_eval, List.map_map]
        have hinner := mapM_map_eq_ok (List.range b.cols)
          ((fun j => ((connLenOf P + b.cols * (i + 1) : Nat) : Int) + j -
            (b.cols : Int)) ∘ (fun j : Nat => (j : Int)))
          (pyIndex (write_connectivity (P ++ b :: S)))
          (fun j => (b.data.getD i []).getD j 0)
          (by
            intro j hj
            rw [List.mem_range] at hj
            simp only [Function.comp_apply]
            have hcast : ((connLenOf P + b.cols * (i + 1) : Nat) : Int) + (j : Int) -
                (b.cols : Int) = ((connLenOf P + (b.cols * i + j) : Nat) : Int) := by
              push_cast
              ring
            rw [hcast, pyIndex_nat_eval _ _ (by
              have hc1 := conn_length_ge P S b hrectP hrect
              have hc2 : b.cols * i + b.cols ≤ b.cols * b.data.length := by
                calc b.cols * i + b.cols = b.cols * (i + 1) := by ring
                _ ≤ b.cols * b.data.length := Nat.mul_le_mul_left _ (by omega)
              omega)]
            rw [conn_getD P S b hrectP hrect i j hi hj])
        rw [hinner]
        congr 1
        have hlenrow : (b.data.getD i []).length = b.cols :=
          hrect _ (getD_mem b.data i [] hi)
        rw [← hlenrow]
        exact range_map_getD (b.data.getD i []) 0)
    rw [hmain]
    congr 1
    exact range_map_getD b.data []
  rw [hrows]
  rfl
theorem take7_polygon : List.take 7 "polygon".data = "polygon".data := by decide

theorem take10_polyhedron : List.take 10 "polyhedron".data = "polyhedron".data := by
  decide

theorem processRun_step (P S : List MBlock) (b : MBlock)
    (hrectP : ∀ x ∈ P, ∀ row ∈ x.data, row.length = x.cols)
    (hfixb : fixedBlockOk b = true)
    (st : RunState) :
    processRun (write_connectivity (P ++ b :: S)) (write_offsets 0 (P ++ b :: S))
        (typesList (P ++ b :: S)) st (rowsOf P, rowsOf P + b.data.length) =
      .ok { st with
        cells := st.cells ++ [⟨b.type, b.data⟩],
        cellData := st.cdr.foldl
          (fun cd nd => appendCellData cd nd.1
            ((nd.2.drop (rowsOf P)).take b.data.length))
          st.cellData } := by
  obtain ⟨hne, hrect, hpg, hph, code, htab, hinv, hnn⟩ := fixedBlockOk_spec b hfixb
  unfold processRun
  simp only [show ((rowsOf P, rowsOf P + b.data.length) : Nat × Nat).1 = rowsOf P
    from rfl,
    show ((rowsOf P, rowsOf P + b.data.length) : Nat × Nat).2 =
      rowsOf P + b.data.length from rfl]
  have hidx : pyIndex (typesList (P ++ b :: S)) ((rowsOf P : Nat) : Int) =
      .ok ((typesList (P ++ b :: S)).getD (rowsOf P) 0) :=
    pyIndex_nat_eval _ _ (by
      rw [typesList_length]
      have hbl : 0 < b.data.length := List.length_pos.mpr hne
      simp only [rowsOf, List.map_append, List.sum_append, List.map_cons,
        List.sum_cons]
      omega)
  rw [hidx, typesList_getD_start P S b hne, htab]
  simp only [Option.getD_some, bind, Except.bind, hinv]
  rw [if_neg (by
    rintro (hp | hp)
    · rw [hp, take7_polygon] at hpg; exact hpg rfl
    · rw [hp, take10_polyhedron] at hph; exact hph rfl)]
  exact processFixedRun_eval P S b code hrectP hrect hnn st
theorem rowsOf_append (P Q : List MBlock) : rowsOf (P ++ Q) = rowsOf P + rowsOf Q := by
  simp [rowsOf]

theorem foldlM_blockPairs_eval (blocks : List MBlock)
    (parts : AList String (List (List Int)))
    (hfix : ∀ x ∈ blocks, fixedBlockOk x = true)
    (hnd : (parts.map Prod.fst).Nodup)
    (hplen : ∀ p ∈ parts, p.2.length = blocks.length)
    (hrows : ∀ p ∈ parts, ∀ k, k < blocks.length →
      (p.2.getD k []).length = (blocks.getD k ⟨"", 0, []⟩).data.length) :
    ∀ (S P : List MBlock), blocks = P ++ S →
    (blockPairs (rowsOf P) S).foldlM
        (processRun (write_connectivity blocks) (write_offsets 0 blocks)
          (typesList blocks))
        ⟨P.map (fun x => ⟨x.type, x.data⟩), cdState P.length parts, none, false,
          parts.map (fun p => (p.1, p.2.flatten)), none, none, false⟩ =
      .ok ⟨blocks.map (fun x => ⟨x.type, x.data⟩), cdState blocks.length parts,
          none, false, parts.map (fun p => (p.1, p.2.flatten)), none, none,
          false⟩ := by
  intro S
  induction S with
  | nil =>
      intro P hP
      rw [List.append_nil] at hP
      subst hP
      rfl
  | cons b S ih =>
      intro P hP
      have hfixb : fixedBlockOk b = true := hfix b (by rw [hP]; simp)
      have hrectP : ∀ x ∈ P, ∀ row ∈ x.data, row.length = x.cols := by
        intro x hx
        obtain ⟨_, h2, _⟩ := fixedBlockOk_spec x (hfix x (by rw [hP]; simp [hx]))
        exact h2
      show ((rowsOf P, rowsOf P + b.data.length) ::
          blockPairs (rowsOf P + b.data.length) S).foldlM _ _ = _
      rw [List.foldlM_cons, hP,
        processRun_step P S b hrectP hfixb
          ⟨P.map (fun x => ⟨x.type, x.data⟩), cdState P.length parts, none, false,
            parts.map (fun p => (p.1, p.2.flatten)), none, none, false⟩]
      have hbrow : (blocks.getD P.length ⟨"", 0, []⟩).data.length = b.data.length := by
        rw [hP]
        have h0 := getD_append_right_ge P (b :: S) 0 (⟨"", 0, []⟩ : MBlock)
        rw [Nat.add_zero] at h0
        rw [h0]
        rfl
      have hcd : (parts.map (fun p => (p.1, p.2.flatten))).foldl
          (fun cd nd => appendCellData cd nd.1
            ((nd.2.drop (rowsOf P)).take b.data.length))
          (cdState P.length parts) = cdState (P.length + 1) parts := by
        have hstep := foldl_appendCellData_step
          (fun nd => (nd.2.drop (rowsOf P)).take b.data.length) parts P.length hnd
          (by
            intro p hp
            rw [hplen p hp, hP]
            simp)
          (by
            intro p hp
            simp only []
            have hkp : P.length < p.2.length := by
              rw [hplen p hp, hP]; simp
            have hsum : ((p.2.take P.length).map List.length).sum = rowsOf P := by
              apply sum_take_lengths P p.2
              · intro k hk
                rw [hrows p hp k (by rw [hP, List.length_append, List.length_cons]; omega), hP,
                  getD_append_lt _ _ _ _ hk]
              · omega
            have hlenk : (p.2.getD P.length []).length = b.data.length := by
              rw [hrows p hp P.length (by rw [hP]; simp), hbrow]
            rw [← hlenk, ← hsum]
            exact flatten_drop_take p.2 P.length hkp)
        simpa using hstep
      simp only [bind, Except.bind]
      have hnext := ih (P ++ [b]) (by rw [hP]; simp)
      have hrb : rowsOf [b] = b.data.length := by simp [rowsOf]
      rw [rowsOf_append, hrb, List.length_append, List.map_append] at hnext
      simp only [List.map_cons, List.map_nil, List.length_cons, List.length_nil,
        Nat.zero_add] at hnext
      rw [hcd, ← hP]
      exact hnext
theorem cells_from_data_roundtrip (blocks : List MBlock)
    (parts : AList String (List (List Int)))
    (hfix : ∀ x ∈ blocks, fixedBlockOk x = true)
    (hadj : adjacentDistinct blocks = true)
    (hbne : blocks ≠ [])
    (hnd : (parts.map Prod.fst).Nodup)
    (hplen : ∀ p ∈ parts, p.2.length = blocks.length)
    (hrows : ∀ p ∈ parts, ∀ k, k < blocks.length →
      (p.2.getD k []).length = (blocks.getD k ⟨"", 0, []⟩).data.length) :
    _cells_from_data (write_connectivity blocks) (write_offsets 0 blocks)
        (typesList blocks) (parts.map (fun p => (p.1, p.2.flatten))) =
      .ok ⟨blocks.map (fun x => ⟨x.type, x.data⟩), cdState blocks.length parts,
        none⟩ := by
  have hne : ∀ x ∈ blocks, x.data ≠ [] := by
    intro x hx
    obtain ⟨h1, _⟩ := fixedBlockOk_spec x (hfix x hx)
    exact h1
  unfold _cells_from_data
  rw [if_neg (by rw [write_offsets_length, typesList_length]; exact fun h => h rfl)]
  rw [runPairs_typesList blocks hne hadj hbne]
  have hfold := foldlM_blockPairs_eval blocks parts hfix hnd hplen hrows blocks [] (by simp)
  have h0 : rowsOf ([] : List MBlock) = 0 := rfl
  rw [show blockPairs (rowsOf ([] : List MBlock)) blocks = blockPairs 0 blocks
    from by rw [h0]] at hfold
  rw [show cdState ([] : List MBlock).length parts = [] from by simp [cdState]] at hfold
  simp only [List.map_nil, List.length_nil] at hfold
  simp only [hfold]
  rfl
theorem shiftBlock_zero (c : CellBlock) : shiftBlock 0 c = c := by
  cases c with
  | mk t d =>
      unfold shiftBlock
      simp

theorem organize_cells_single (conn offs ts : List Int)
    (cdr : AList String (List Int)) (out : CellsOut)
    (h : _cells_from_data conn offs ts cdr = .ok out) :
    _organize_cells [0] [⟨conn, offs, ts, none, none⟩] [cdr] =
      .ok (out.cells.map (shiftBlock 0), out.cellData, out.polyFaces) := by
  unfold _organize_cells
  rw [if_neg (by simp)]
  simp only [List.zip_cons_cons, List.zip_nil_right, List.foldlM_cons,
    List.foldlM_nil, h, bind, Except.bind]
  rfl

theorem intToLE_length (w : Nat) (v : Int) : (intToLE w v).length = w := by
  unfold intToLE
  exact toLE_length _ _

theorem intToLE_lt (w : Nat) (v : Int) : ∀ x ∈ intToLE w v, x < 256 := by
  unfold intToLE
  exact toLE_lt _ _

theorem arrToBytesI_length (w : Nat) (vals : List Int) :
    (arrToBytesI w vals).length = w * vals.length := by
  unfold arrToBytesI
  rw [List.length_flatten, List.map_map]
  have hmap : vals.map (List.length ∘ intToLE w) = vals.map (fun _ => w) :=
    List.map_congr_left (fun v _ => intToLE_length w v)
  rw [hmap]
  simp [List.map_const', mul_comm]

theorem arrToBytesI_lt (w : Nat) (vals : List Int) :
    ∀ x ∈ arrToBytesI w vals, x < 256 := by
  intro x hx
  unfold arrToBytesI at hx
  rw [List.mem_flatten] at hx
  obtain ⟨l, hl, hxl⟩ := hx
  rw [List.mem_map] at hl
  obtain ⟨v, _, hv⟩ := hl
  exact intToLE_lt w v x (hv ▸ hxl)

theorem arrToBytesI_cons (w : Nat) (v : Int) (rest : List Int) :
    arrToBytesI w (v :: rest) = intToLE w v ++ arrToBytesI w rest := by
  simp [arrToBytesI]

theorem leChunks_nil (w : Nat) : leChunks w [] = [] := by
  rw [leChunks]
  simp

theorem leChunks_exact (w : Nat) (hw : 0 < w) (bs : List Nat)
    (hlen : bs.length = w) : leChunks w bs = [fromLE bs] := by
  rw [leChunks]
  rw [dif_neg (by
    rintro (h | h)
    · omega
    · rw [h] at hlen; simp at hlen; omega)]
  rw [← hlen, List.take_length, List.drop_length, leChunks_nil]

theorem leChunks_append (w : Nat) (hw : 0 < w) :
    ∀ (n : Nat) (a b : List Nat), a.length ≤ n → w ∣ a.length →
    leChunks w (a ++ b) = leChunks w a ++ leChunks w b := by
  intro n
  induction n with
  | zero =>
      intro a b hle hdvd
      have ha : a = [] := by
        cases a with
        | nil => rfl
        | cons x xs => simp at hle
      subst ha
      simp [leChunks_nil]
  | succ n ih =>
      intro a b hle hdvd
      by_cases ha : a = []
      · subst ha; simp [leChunks_nil]
      · have haw : w ≤ a.length := Nat.le_of_dvd (List.length_pos.mpr ha) hdvd
        by_cases hb : b = []
        · subst hb; simp [leChunks_nil]
        · rw [show leChunks w (a ++ b) =
              fromLE ((a ++ b).take w) :: leChunks w ((a ++ b).drop w) from by
            rw [leChunks, dif_neg (by
              rintro (h | h)
              · omega
              · exact ha (by cases a; rfl; simp at h))]]
          rw [show leChunks w a = fromLE (a.take w) :: leChunks w (a.drop w) from by
            rw [leChunks, dif_neg (by rintro (h | h); omega; exact ha h)]]
          rw [List.take_append_of_le_length haw, List.drop_append_of_le_length haw]
          rw [ih (a.drop w) b (by rw [List.length_drop]; omega)
            (by rw [List.length_drop]; exact (Nat.dvd_sub' hdvd (dvd_refl w)))]
          rfl

theorem fromLE_intToLE (w : Nat) (v : Int) :
    fromLE (intToLE w v) = (v % ((256 ^ w : Nat) : Int)).toNat := by
  unfold intToLE
  rw [fromLE_toLE]
  apply Nat.mod_eq_of_lt
  have hpos : (0 : Int) < ((256 ^ w : Nat) : Int) := by positivity
  have h1 : 0 ≤ v % ((256 ^ w : Nat) : Int) := Int.emod_nonneg v (by omega)
  have h2 : v % ((256 ^ w : Nat) : Int) < ((256 ^ w : Nat) : Int) :=
    Int.emod_lt_of_pos v hpos
  omega

theorem leChunks_arrToBytesI (w : Nat) (hw : 0 < w) (vals : List Int) :
    leChunks w (arrToBytesI w vals) =
      vals.map (fun v => (v % ((256 ^ w : Nat) : Int)).toNat) := by
  induction vals with
  | nil => simp [arrToBytesI, leChunks_nil]
  | cons v rest ih =>
      rw [arrToBytesI_cons,
        leChunks_append w hw (intToLE w v).length _ _ (le_refl _)
          (by rw [intToLE_length]),
        leChunks_exact w hw _ (intToLE_length w v), fromLE_intToLE, ih]
      rfl

theorem readBack_vals (w : Nat) (vals : List Int) (hvals : arrValsOk w vals = true) :
    (vals.map (fun v => (v % ((256 ^ w : Nat) : Int)).toNat)).map
      (fun n => ((n : Nat) : Int)) = vals := by
  rw [List.map_map]
  have hcong : vals.map ((fun n => ((n : Nat) : Int)) ∘
      (fun v => (v % ((256 ^ w : Nat) : Int)).toNat)) = vals.map (fun v => v) := by
    apply List.map_congr_left
    intro v hv
    unfold arrValsOk at hvals
    rw [List.all_eq_true] at hvals
    have hb := hvals v hv
    simp only [Bool.and_eq_true, decide_eq_true_eq] at hb
    simp only [Function.comp_apply]
    rw [Int.emod_eq_of_lt hb.1 hb.2]
    exact Int.toNat_of_nonneg hb.1
  rw [hcong, List.map_id']

theorem flatMap_pure_cast (l : List Nat) :
    (l.flatMap fun a => (pure ((a : Nat) : Int) : List Int)) =
      l.map (fun a => ((a : Nat) : Int)) := by
  induction l with
  | nil => rfl
  | cons x xs ih => simp_all [List.flatMap]

theorem read_data_binU (hw w : Nat) (isF : Bool) (comps : Option Nat)
    (vals : List Int) (dec : List Nat → List Nat)
    (h3 : hw % 3 ≠ 0) (hw0 : 0 < w)
    (hvals : arrValsOk w vals = true)
    (hlen : w * vals.length < 256 ^ hw) :
    read_data false hw dec (writeArr .binU hw w isF comps vals) = .ok vals := by
  unfold writeArr read_data write_uncompressed_binary
  simp only []
  have hrt := (read_uncompressed_roundtrip hw (arrToBytesI w vals) h3
    (arrToBytesI_lt w vals) (by rw [arrToBytesI_length]; exact hlen)).1
  rw [hrt]
  have hfb : fromBuffer w (arrToBytesI w vals) = .ok (leChunks w (arrToBytesI w vals)) := by
    unfold fromBuffer
    rw [if_neg (by omega), if_neg (by
      rw [arrToBytesI_length]
      simp [Nat.mul_mod_right])]
  rw [if_neg Bool.false_ne_true, hfb]
  simp only [bind, Except.bind]
  rw [List.map_id', flatMap_pure_cast, leChunks_arrToBytesI w hw0,
    readBack_vals w vals hvals]
theorem read_data_ascii (compressed : Bool) (hw w : Nat) (isF : Bool)
    (comps : Option Nat) (vals : List Int) (dec : List Nat → List Nat) :
    read_data compressed hw dec (writeArr .asciiC hw w isF comps vals) =
      .ok vals := rfl

theorem _chunk_it_nil (n : Nat) : _chunk_it n [] = [] := by
  rw [_chunk_it]
  simp

theorem _chunk_it_flatten :
    ∀ (m : Nat) (l : List Nat), l.length ≤ m → (_chunk_it 32768 l).flatten = l := by
  intro m
  induction m with
  | zero =>
      intro l hle
      have hl : l = [] := by
        cases l with
        | nil => rfl
        | cons x xs => simp at hle
      subst hl
      rw [_chunk_it_nil]
      rfl
  | succ m ih =>
      intro l hle
      by_cases hl : l = []
      · subst hl; rw [_chunk_it_nil]; rfl
      · rw [_chunk_it, dif_neg (by rintro (h | h); omega; exact hl h)]
        have hpos : 0 < l.length := List.length_pos.mpr hl
        rw [List.flatten_cons,
          ih (l.drop 32768) (by rw [List.length_drop]; omega)]
        exact List.take_append_drop 32768 l

theorem _chunk_it_count :
    ∀ (m : Nat) (l : List Nat), l.length ≤ m →
    (_chunk_it 32768 l).length * 32768 < l.length + 32768 ∧
      l.length ≤ (_chunk_it 32768 l).length * 32768 := by
  intro m
  induction m with
  | zero =>
      intro l hle
      have hl : l = [] := by
        cases l with
        | nil => rfl
        | cons x xs => simp at hle
      subst hl
      rw [_chunk_it_nil]
      simp
  | succ m ih =>
      intro l hle
      by_cases hl : l = []
      · subst hl; rw [_chunk_it_nil]; simp
      · rw [_chunk_it, dif_neg (by rintro (h | h); omega; exact hl h)]
        have hpos : 0 < l.length := List.length_pos.mpr hl
        have hih := ih (l.drop 32768) (by rw [List.length_drop]; omega)
        rw [List.length_drop] at hih
        rw [List.length_cons]
        omega

theorem _chunk_it_mem_le :
    ∀ (m : Nat) (l : List Nat), l.length ≤ m →
    ∀ c ∈ _chunk_it 32768 l, c.length ≤ 32768 := by
  intro m
  induction m with
  | zero =>
      intro l hle c hc
      have hl : l = [] := by
        cases l with
        | nil => rfl
        | cons x xs => simp at hle
      subst hl
      rw [_chunk_it_nil] at hc
      cases hc
  | succ m ih =>
      intro l hle c hc
      by_cases hl : l = []
      · subst hl; rw [_chunk_it_nil] at hc; cases hc
      · rw [_chunk_it, dif_neg (by rintro (h | h); omega; exact hl h)] at hc
        have hpos : 0 < l.length := List.length_pos.mpr hl
        rcases List.mem_cons.mp hc with h | h
        · subst h; simp
        · exact ih (l.drop 32768) (by rw [List.length_drop]; omega) c h

theorem _chunk_it_mem_dvd (w : Nat) (hw32 : w ∣ 32768) :
    ∀ (m : Nat) (l : List Nat), l.length ≤ m → w ∣ l.length →
    ∀ c ∈ _chunk_it 32768 l, w ∣ c.length := by
  intro m
  induction m with
  | zero =>
      intro l hle _ c hc
      have hl : l = [] := by
        cases l with
        | nil => rfl
        | cons x xs => simp at hle
      subst hl
      rw [_chunk_it_nil] at hc
      cases hc
  | succ m ih =>
      intro l hle hdvd c hc
      by_cases hl : l = []
      · subst hl; rw [_chunk_it_nil] at hc; cases hc
      · rw [_chunk_it, dif_neg (by rintro (h | h); omega; exact hl h)] at hc
        have hpos : 0 < l.length := List.length_pos.mpr hl
        rcases List.mem_cons.mp hc with h | h
        · subst h
          rw [List.length_take]
          rcases Nat.le_total l.length 32768 with hc1 | hc1
          · rw [min_eq_right hc1]; exact hdvd
          · rw [min_eq_left hc1]; exact hw32
        · exact ih (l.drop 32768) (by rw [List.length_drop]; omega)
            (by rw [List.length_drop]; exact Nat.dvd_sub' hdvd hw32) c h

theorem leChunks_flatten (w : Nat) (hw : 0 < w) (ls : List (List Nat))
    (h : ∀ c ∈ ls, w ∣ c.length) :
    leChunks w ls.flatten = (ls.map (leChunks w)).flatten := by
  induction ls with
  | nil => simp [leChunks_nil]
  | cons c rest ih =>
      rw [List.flatten_cons,
        leChunks_append w hw c.length c rest.flatten (le_refl _) (h c (by simp)),
        List.map_cons, List.flatten_cons, ih (fun x hx => h x (by simp [hx]))]

theorem cumsum_getD : ∀ (l : List Nat) (acc k : Nat), k < l.length →
    (cumsum acc l).getD k 0 = acc + (l.take (k + 1)).sum := by
  intro l
  induction l with
  | nil => intro acc k h; simp at h
  | cons x xs ih =>
      intro acc k h
      cases k with
      | zero => simp [cumsum]
      | succ k' =>
          show ((acc + x) :: cumsum (acc + x) xs).getD (k' + 1) 0 = _
          rw [List.getD_cons_succ, ih (acc + x) k' (by simpa using h)]
          rw [List.take_succ_cons, List.sum_cons]
          omega

theorem cumsum_mem_le : ∀ (l : List Nat) (acc : Nat), ∀ x ∈ cumsum acc l,
    x ≤ acc + l.sum := by
  intro l
  induction l with
  | nil => intro acc x hx; cases hx
  | cons y ys ih =>
      intro acc x hx
      rw [show cumsum acc (y :: ys) = (acc + y) :: cumsum (acc + y) ys from rfl] at hx
      rcases List.mem_cons.mp hx with h | h
      · subst h; simp only [List.sum_cons]; omega
      · have := ih (acc + y) x h
        simp only [List.sum_cons]
        omega

theorem cumsum_length : ∀ (l : List Nat) (acc : Nat), (cumsum acc l).length = l.length := by
  intro l
  induction l with
  | nil => intro acc; rfl
  | cons y ys ih => intro acc; simp [cumsum, ih]
theorem nbI_facts (len : Nat) :
    (-((-(len : Int)).fdiv 32768)).toNat * 32768 < len + 32768 ∧
    len ≤ (-((-(len : Int)).fdiv 32768)).toNat * 32768 ∧
    0 ≤ -((-(len : Int)).fdiv 32768) := by
  rw [Int.fdiv_eq_ediv _ (by norm_num)]
  omega

theorem lbs_bounds (len : Nat) :
    1 ≤ (len : Int) - (-((-(len : Int)).fdiv 32768) - 1) * 32768 ∧
    (len : Int) - (-((-(len : Int)).fdiv 32768) - 1) * 32768 ≤ 32768 := by
  rw [Int.fdiv_eq_ediv _ (by norm_num)]
  omega

theorem num_b64_chars_toNat (k : Nat) :
    (num_bytes_to_num_base64_chars (k : Int)).toNat = ((k + 2) / 3) * 4 := by
  unfold num_bytes_to_num_base64_chars
  rw [Int.fdiv_eq_ediv _ (by norm_num)]
  omega

theorem modpow_id (hw : Nat) (v : Int) (h0 : 0 ≤ v)
    (h1 : v < ((256 ^ hw : Nat) : Int)) :
    (v % ((256 ^ hw : Nat) : Int)).toNat = v.toNat := by
  rw [Int.emod_eq_of_lt h0 h1]

theorem sum_le_shift (f g : List Nat → Nat) (c : Nat) (h : ∀ x, f x ≤ g x + c) :
    ∀ l : List (List Nat), (l.map f).sum ≤ (l.map g).sum + c * l.length := by
  intro l
  induction l with
  | nil => simp
  | cons x xs ih =>
      simp only [List.map_cons, List.sum_cons, List.length_cons]
      have := h x
      calc f x + (xs.map f).sum ≤ (g x + c) + ((xs.map g).sum + c * xs.length) :=
        Nat.add_le_add this ih
      _ = (g x + (xs.map g).sum) + c * (xs.length + 1) := by ring

theorem offsets_getD (sizes : List Nat) (k : Nat) (hk : k ≤ sizes.length) :
    (0 :: cumsum 0 sizes).getD k 0 = (sizes.take k).sum := by
  cases k with
  | zero => simp
  | succ k' =>
      rw [List.getD_cons_succ, cumsum_getD sizes 0 k' (by omega)]
      omega

theorem getD_map_of_lt {α β : Type} (f : α → β) (l : List α) (k : Nat) (d : β)
    (d' : α) (hk : k < l.length) : (l.map f).getD k d = f (l.getD k d') := by
  rw [List.getD_eq_getElem?_getD, List.getElem?_map, List.getElem?_eq_getElem hk,
    List.getD_eq_getElem?_getD, List.getElem?_eq_getElem hk]
  rfl

theorem range_map_getD_comp {α β : Type} (l : List α) (d : α) (g : α → β) :
    (List.range l.length).map (fun i => g (l.getD i d)) = l.map g := by
  rw [show (fun i => g (l.getD i d)) = g ∘ (fun i => l.getD i d) from rfl,
    ← List.map_map, range_map_getD]

theorem flatten_drop_take_g {α : Type} : ∀ (parts : List (List α)) (k : Nat),
    k < parts.length →
    ((parts.flatten.drop (((parts.take k).map List.length).sum)).take
      (parts.getD k []).length) = parts.getD k [] := by
  intro parts
  induction parts with
  | nil => intro k hk; simp at hk
  | cons p rest ih =>
      intro k hk
      cases k with
      | zero =>
          simp only [List.take_zero, List.map_nil, List.sum_nil, List.drop_zero,
            List.getD_cons_zero, List.flatten_cons]
          rw [List.take_append_of_le_length (le_refl _), List.take_length]
      | succ k' =>
          simp only [List.take_succ_cons, List.map_cons, List.sum_cons,
            List.getD_cons_succ, List.flatten_cons]
          rw [List.drop_append]
          exact ih k' (by simpa using hk)
theorem _chunk_it_mem_mem :
    ∀ (m : Nat) (l : List Nat), l.length ≤ m →
    ∀ c ∈ _chunk_it 32768 l, ∀ x ∈ c, x ∈ l := by
  intro m
  induction m with
  | zero =>
      intro l hle c hc
      have hl : l = [] := by
        cases l with
        | nil => rfl
        | cons y ys => simp at hle
      subst hl
      rw [_chunk_it_nil] at hc
      cases hc
  | succ m ih =>
      intro l hle c hc x hx
      by_cases hl : l = []
      · subst hl; rw [_chunk_it_nil] at hc; cases hc
      · rw [_chunk_it, dif_neg (by rintro (h | h); omega; exact hl h)] at hc
        have hpos : 0 < l.length := List.length_pos.mpr hl
        rcases List.mem_cons.mp hc with h | h
        · subst h
          exact List.mem_of_mem_take hx
        · exact List.mem_of_mem_drop
            (ih (l.drop 32768) (by rw [List.length_drop]; omega) c h x hx)

theorem take_drop_slice {α : Type} (l : List α) (a b : Nat) :
    (l.take (a + b)).drop a = (l.drop a).take b := by
  rw [List.drop_take]
  congr 1
  omega

theorem read_compressed_roundtrip (hw w : Nat) (bytes : List Nat)
    (comp dec : List Nat → List Nat)
    (hdec : ∀ l, dec (comp l) = l)
    (hcb : ∀ l, (∀ x ∈ l, x < 256) → ∀ x ∈ comp l, x < 256)
    (hcs : ∀ l, (comp l).length ≤ l.length + 64)
    (h3 : hw % 3 ≠ 0)
    (hb : ∀ x ∈ bytes, x < 256)
    (hbne : bytes ≠ [])
    (hw32 : w ∣ 32768) (hwb : w ∣ bytes.length) (hwpos : 0 < w)
    (hbig : 65 * bytes.length < 256 ^ hw)
    (hmax : 33000 < 256 ^ hw) :
    read_compressed_binary (write_compressed_binary hw comp bytes) hw w dec =
      .ok (leChunks w bytes) := by
  have hw0 : 0 < hw := by omega
  have hlen1 : 1 ≤ bytes.length := List.length_pos.mpr hbne
  have hchflat : (_chunk_it 32768 bytes).flatten = bytes :=
    _chunk_it_flatten bytes.length bytes (le_refl _)
  have hnbf := nbI_facts bytes.length
  have hcount := _chunk_it_count bytes.length bytes (le_refl _)
  have hKnb : (_chunk_it 32768 bytes).length = (-((-(bytes.length : Int)).fdiv 32768)).toNat := by
    omega
  have hnb1 : 1 ≤ (_chunk_it 32768 bytes).length := by omega
  have hnb_len : (_chunk_it 32768 bytes).length ≤ bytes.length := by omega
  have hlenB : ((bytes.length : Int)) < ((256 ^ hw : Nat) : Int) := by
    have : bytes.length < 256 ^ hw := by omega
    exact_mod_cast this
  -- abbreviations
  set len := bytes.length with hlen_def
  set chunks := _chunk_it 32768 bytes with hchunks_def
  set nb := chunks.length with hnb_def
  set blocks := chunks.map comp with hblocks_def
  set sizes := blocks.map List.length with hsizes_def
  set nbI := -((-(len : Int)).fdiv 32768) with hnbI_def
  set lbsI := (len : Int) - (nbI - 1) * 32768 with hlbsI_def
  set header := ([nbI, (32768 : Int), lbsI] ++
    blocks.map (fun b => (b.length : Int))) with hheader_def
  set hbytes := arrToBytesI hw header with hhbytes_def
  have hlbs := lbs_bounds len
  have hnbI0 : 0 ≤ nbI := hnbf.2.2
  have hnbIB : nbI < ((256 ^ hw : Nat) : Int) := by omega
  have hnbIn : nbI.toNat = nb := hKnb.symm
  have hblen : blocks.length = nb := by rw [hblocks_def]; simp [hnb_def]
  have hszlen : sizes.length = nb := by rw [hsizes_def]; simp [hblen]
  have hsz_le : ∀ s ∈ sizes, s ≤ 32832 := by
    intro s hs
    rw [hsizes_def, hblocks_def, List.map_map] at hs
    rw [List.mem_map] at hs
    obtain ⟨c, hc, hcv⟩ := hs
    have h1 := _chunk_it_mem_le len bytes (le_refl _) c hc
    have h2 := hcs c
    simp only [Function.comp_apply] at hcv
    omega
  have hsum_le : sizes.sum ≤ 65 * len := by
    rw [hsizes_def, hblocks_def, List.map_map]
    have h1 := sum_le_shift (fun c => (comp c).length) List.length 64 hcs chunks
    have h2 : (chunks.map List.length).sum = len := by
      rw [← List.length_flatten, hchflat]
    rw [h2] at h1
    calc (chunks.map (List.length ∘ comp)).sum ≤ len + 64 * nb := h1
    _ ≤ 65 * len := by omega
  have hheaderlen : header.length = 3 + nb := by
    rw [hheader_def]
    simp [hblen]
    omega
  have hhblen : hbytes.length = hw * (3 + nb) := by
    rw [hhbytes_def, arrToBytesI_length, hheaderlen]
  have hwrite : write_compressed_binary hw comp bytes =
      b64encode hbytes ++ b64encode blocks.flatten := rfl
  -- header read chain
  have e1 : (num_bytes_to_num_base64_chars ((hw : Nat) : Int)).toNat =
      ((hw + 2) / 3) * 4 := num_b64_chars_toNat hw
  have hq_le : ((hw + 2) / 3) * 4 ≤ (b64encode hbytes).length := by
    rw [b64encode_length, hhblen]
    have : hw + 2 ≤ hw * (3 + nb) + 2 := by
      have : hw ≤ hw * (3 + nb) := Nat.le_mul_of_pos_right hw (by omega)
      omega
    have := Nat.div_le_div_right (c := 3) this
    omega
  have e2 : (b64encode hbytes ++ b64encode blocks.flatten).take (((hw + 2) / 3) * 4) =
      (b64encode hbytes).take (4 * ((hw + 2) / 3)) := by
    rw [List.take_append_of_le_length hq_le, Nat.mul_comm]
  have e3 : b64decode ((b64encode hbytes).take (4 * ((hw + 2) / 3))) =
      hbytes.take (3 * ((hw + 2) / 3)) :=
    b64_decode_take hbytes ((hw + 2) / 3) (arrToBytesI_lt hw header)
  have e4 : (hbytes.take (3 * ((hw + 2) / 3))).take hw = hbytes.take hw := by
    rw [List.take_take]
    congr 1
    omega
  have e5 : hbytes.take hw = intToLE hw nbI := by
    rw [hhbytes_def, hheader_def]
    rw [show ([nbI, (32768 : Int), lbsI] ++
        blocks.map (fun b => (b.length : Int))) =
      nbI :: ([(32768 : Int), lbsI] ++ blocks.map (fun b => (b.length : Int)))
      from rfl]
    rw [arrToBytesI_cons]
    have h0 := List.take_left (intToLE hw nbI)
      (arrToBytesI hw ([(32768 : Int), lbsI] ++ blocks.map (fun b => (b.length : Int))))
    rwa [intToLE_length] at h0
  have e6 : fromLE (intToLE hw nbI) = nb := by
    rw [fromLE_intToLE, modpow_id hw nbI hnbI0 hnbIB, hnbIn]
  have e7 : (num_bytes_to_num_base64_chars ((hw * (3 + nb) : Nat) : Int)).toNat =
      (b64encode hbytes).length := by
    rw [num_b64_chars_toNat, b64encode_length, hhblen]
  have e9 : b64decode (b64encode hbytes) = hbytes :=
    b64_decode_encode hbytes (arrToBytesI_lt hw header)
  have hbodyb : ∀ x ∈ blocks.flatten, x < 256 := by
    intro x hx
    rw [List.mem_flatten] at hx
    obtain ⟨c, hc, hxc⟩ := hx
    rw [hblocks_def, List.mem_map] at hc
    obtain ⟨ch, hch, hchv⟩ := hc
    exact hcb ch
      (fun y hy => hb y (_chunk_it_mem_mem bytes.length bytes (le_refl _) ch hch y hy))
      x (hchv ▸ hxc)
  have e13 : b64decode (b64encode blocks.flatten) = blocks.flatten :=
    b64_decode_encode blocks.flatten hbodyb
  have e10 : fromBuffer hw hbytes = .ok (nb :: 32768 :: lbsI.toNat :: sizes) := by
    unfold fromBuffer
    rw [if_neg (by omega), if_neg (by rw [hhblen]; simp [Nat.mul_mod_right])]
    congr 1
    rw [hhbytes_def, leChunks_arrToBytesI hw hw0, hheader_def, List.map_append]
    have hpart1 : ([nbI, (32768 : Int), lbsI]).map
        (fun v => (v % ((256 ^ hw : Nat) : Int)).toNat) =
        [nb, 32768, lbsI.toNat] := by
      simp only [List.map_cons, List.map_nil]
      rw [modpow_id hw nbI hnbI0 hnbIB, hnbIn,
        modpow_id hw 32768 (by norm_num) (by omega),
        modpow_id hw lbsI (by omega) (by omega)]
      rfl
    rw [hpart1, List.map_map]
    simp only [List.cons_append, List.nil_append, List.cons.injEq, true_and]
    rw [hsizes_def]
    apply List.map_congr_left
    intro bl hbl
    simp only [Function.comp_apply]
    have hle : bl.length ≤ 32832 := by
      apply hsz_le
      rw [hsizes_def, List.mem_map]
      exact ⟨bl, hbl, rfl⟩
    rw [modpow_id hw (bl.length : Int) (by omega) (by
      have : (bl.length : Int) < 33000 := by exact_mod_cast (by omega : bl.length < 33000)
      omega)]
    exact Int.toNat_natCast _
  have e14 : (cumsum 0 sizes).map (· % 256 ^ hw) = cumsum 0 sizes := by
    have : ∀ x ∈ cumsum 0 sizes, x % 256 ^ hw = x := by
      intro x hx
      have h1 := cumsum_mem_le sizes 0 x hx
      exact Nat.mod_eq_of_lt (by omega)
    calc (cumsum 0 sizes).map (· % 256 ^ hw) = (cumsum 0 sizes).map (fun x => x) :=
      List.map_congr_left this
    _ = cumsum 0 sizes := List.map_id' _
  -- the per-block mapM
  have hFk : ∀ k, k < nb →
      (blocks.flatten.take ((0 :: cumsum 0 sizes).getD (k + 1) 0)).drop
        ((0 :: cumsum 0 sizes).getD k 0) = comp (chunks.getD k []) := by
    intro k hk
    rw [offsets_getD sizes k (by omega), offsets_getD sizes (k + 1) (by omega)]
    have hsucc : (sizes.take (k + 1)).sum =
        (sizes.take k).sum + (blocks.getD k []).length := by
      rw [take_succ_getD sizes k 0 (by omega), List.sum_append]
      simp only [List.sum_cons, List.sum_nil]
      rw [hsizes_def, getD_map_of_lt List.length blocks k 0 [] (by omega)]
      omega
    rw [hsucc, take_drop_slice]
    have hmt : (sizes.take k) = (blocks.take k).map List.length := by
      rw [hsizes_def, List.map_take]
    rw [hmt]
    rw [flatten_drop_take_g blocks k (by omega)]
    rw [hblocks_def, getD_map_of_lt comp chunks k [] [] (by omega)]
  rw [hwrite]
  unfold read_compressed_binary
  simp only [e1, e2, e3, e4, e5, e6, e7, e9, e13, e10,
    List.take_left, List.drop_left, bind, Except.bind]
  simp only [List.drop_succ_cons, List.drop_zero, e14]
  rw [if_neg (by omega), if_neg (by omega)]
  have hmapM : (List.range nb).mapM (fun k => do
      let lo := ((0 : Nat) :: cumsum 0 sizes).getD k 0
      let hi := ((0 : Nat) :: cumsum 0 sizes).getD (k + 1) 0
      fromBuffer w (dec ((blocks.flatten.take hi).drop lo))) =
      .ok ((List.range nb).map (fun k => leChunks w (chunks.getD k []))) := by
    apply mapM_eq_ok
    intro k hk
    rw [List.mem_range] at hk
    simp only []
    rw [hFk k hk, hdec]
    unfold fromBuffer
    rw [if_neg (by omega), if_neg (by
      have := _chunk_it_mem_dvd w hw32 len bytes (le_refl _) hwb
        (chunks.getD k []) (getD_mem chunks k [] (by omega))
      omega)]
  rw [hmapM]
  simp only [bind, Except.bind]
  congr 1
  rw [show nb = chunks.length from rfl, range_map_getD_comp chunks [] (leChunks w),
    ← leChunks_flatten w hwpos chunks
      (_chunk_it_mem_dvd w hw32 len bytes (le_refl _) hwb), hchflat]
theorem writeArr_width (cfg : Config) (hw w : Nat) (isF : Bool)
    (comps : Option Nat) (vals : List Int) :
    (writeArr cfg hw w isF comps vals).width = w := by
  cases cfg <;> rfl

theorem writeArr_isFloat (cfg : Config) (hw w : Nat) (isF : Bool)
    (comps : Option Nat) (vals : List Int) :
    (writeArr cfg hw w isF comps vals).isFloat = isF := by
  cases cfg <;> rfl

theorem read_data_binC (hw w : Nat) (isF : Bool) (comps : Option Nat)
    (vals : List Int) (comp dec : List Nat → List Nat)
    (hdec : ∀ l, dec (comp l) = l)
    (hcb : ∀ l, (∀ x ∈ l, x < 256) → ∀ x ∈ comp l, x < 256)
    (hcs : ∀ l, (comp l).length ≤ l.length + 64)
    (h3 : hw % 3 ≠ 0) (hw0 : 0 < w)
    (hvals : arrValsOk w vals = true)
    (hne : vals ≠ [])
    (hw32 : w ∣ 32768)
    (hbig : 65 * (w * vals.length) < 256 ^ hw)
    (hmax : 33000 < 256 ^ hw) :
    read_data true hw dec (writeArr (.binC comp) hw w isF comps vals) = .ok vals := by
  unfold writeArr read_data
  simp only []
  rw [if_pos trivial]
  have hbne : arrToBytesI w vals ≠ [] := by
    intro h
    have := arrToBytesI_length w vals
    rw [h] at this
    simp at this
    rcases this with h1 | h1
    · omega
    · exact hne h1
  rw [read_compressed_roundtrip hw w (arrToBytesI w vals) comp dec hdec hcb hcs h3
    (arrToBytesI_lt w vals) hbne hw32
    (by rw [arrToBytesI_length]; exact Dvd.intro _ rfl) hw0
    (by rw [arrToBytesI_length]; exact hbig) hmax]
  simp only [bind, Except.bind]
  rw [List.map_id', flatMap_pure_cast, leChunks_arrToBytesI w hw0,
    readBack_vals w vals hvals]
theorem map_shiftBlock_zero (l : List CellBlock) : l.map (shiftBlock 0) = l := by
  rw [List.map_congr_left (fun c _ => shiftBlock_zero c), List.map_id']

theorem except_ok_bind {α β : Type} (a : α) (f : α → Except PyErr β) :
    (Except.ok a : Except PyErr α) >>= f = f a := rfl

theorem readDoc_writeDoc (cfg : Config) (cflag : Bool) (hw : Nat)
    (dec : List Nat → List Nat) (mesh : MeshM)
    (hflag : cflag = match cfg with | Config.binC _ => true | _ => false)
    (hfix : ∀ x ∈ mesh.cells, fixedBlockOk x = true)
    (hadj : adjacentDistinct mesh.cells = true)
    (hbne : mesh.cells ≠ [])
    (hpts3 : mesh.points.vals.length % 3 = 0)
    (hcdnd : (mesh.cell_data.map Prod.fst).Nodup)
    (hcdlen : ∀ p ∈ mesh.cell_data, p.2.blocks.length = mesh.cells.length)
    (hcdrows : ∀ p ∈ mesh.cell_data, ∀ k, k < mesh.cells.length →
      (p.2.blocks.getD k []).length = (mesh.cells.getD k ⟨"", 0, []⟩).data.length)
    (hRpts : read_data cflag hw dec
      (writeArr cfg hw mesh.points.width mesh.points.isFloat (some 3)
        mesh.points.vals) = .ok mesh.points.vals)
    (hRconn : read_data cflag hw dec
      (writeArr cfg hw 8 false none (write_connectivity mesh.cells)) =
        .ok (write_connectivity mesh.cells))
    (hRoffs : read_data cflag hw dec
      (writeArr cfg hw 8 false none (write_offsets 0 mesh.cells)) =
        .ok (write_offsets 0 mesh.cells))
    (hRtypes : read_data cflag hw dec
      (writeArr cfg hw 8 false none (typesList mesh.cells)) =
        .ok (typesList mesh.cells))
    (hRpd : ∀ p ∈ mesh.point_data,
      read_data cflag hw dec
        (writeArr cfg hw p.2.width p.2.isFloat none p.2.vals) = .ok p.2.vals)
    (hRcd : ∀ p ∈ mesh.cell_data,
      read_data cflag hw dec
        (writeArr cfg hw p.2.width p.2.isFloat none p.2.blocks.flatten) =
          .ok p.2.blocks.flatten) :
    (writeDoc cfg hw mesh).bind (readDoc dec) = .ok (asReadMesh mesh) := by
  unfold writeDoc
  rw [write_types_eq mesh.cells hfix, ← hflag]
  rw [except_ok_bind]
  show (readDoc dec _) = _
  unfold readDoc
  simp only []
  rw [hRpts, except_ok_bind]
  rw [if_neg (show ¬(mesh.points.vals.length ≠ mesh.points.vals.length / 3 * 3)
    from by omega)]
  rw [hRconn, except_ok_bind, hRoffs, except_ok_bind, hRtypes, except_ok_bind]
  rw [if_neg (show ¬((write_offsets 0 mesh.cells).length ≠
      (mesh.cells.map (fun b => b.data.length)).sum) from by
    rw [write_offsets_length]
    exact fun h => h rfl)]
  rw [if_neg (show ¬((typesList mesh.cells).length ≠
      (mesh.cells.map (fun b => b.data.length)).sum) from by
    rw [typesList_length]
    exact fun h => h rfl)]
  have hpd : (mesh.point_data.map
      (fun p => (p.1, writeArr cfg hw p.2.width p.2.isFloat none p.2.vals))).mapM
      (fun p => do
        let v ← read_data cflag hw dec p.2
        Except.ok (p.1, Arr.mk p.2.width p.2.isFloat v)) = .ok mesh.point_data := by
    have h0 := mapM_map_eq_ok mesh.point_data
      (fun p => (p.1, writeArr cfg hw p.2.width p.2.isFloat none p.2.vals))
      (fun p => do
        let v ← read_data cflag hw dec p.2
        Except.ok (p.1, Arr.mk p.2.width p.2.isFloat v))
      (fun p => p)
      (by
        intro p hp
        simp only []
        rw [hRpd p hp, except_ok_bind]
        simp only [writeArr_width, writeArr_isFloat])
    rwa [List.map_id'] at h0
  rw [hpd, except_ok_bind]
  have hdcd : (raw_from_cell_data mesh.cell_data).map
      (fun p => (p.1, writeArr cfg hw p.2.1 p.2.2.1 none p.2.2.2)) =
      mesh.cell_data.map
        (fun p => (p.1, writeArr cfg hw p.2.width p.2.isFloat none
          p.2.blocks.flatten)) := by
    unfold raw_from_cell_data
    rw [List.map_map]
    rfl
  rw [hdcd]
  have hcdr : (mesh.cell_data.map
      (fun p => (p.1, writeArr cfg hw p.2.width p.2.isFloat none
        p.2.blocks.flatten))).mapM
      (fun p => do
        let v ← read_data cflag hw dec p.2
        Except.ok (p.1, v)) =
      .ok (mesh.cell_data.map (fun p => (p.1, p.2.blocks.flatten))) :=
    mapM_map_eq_ok mesh.cell_data
      (fun p => (p.1, writeArr cfg hw p.2.width p.2.isFloat none p.2.blocks.flatten))
      (fun p => do
        let v ← read_data cflag hw dec p.2
        Except.ok (p.1, v))
      (fun p => (p.1, p.2.blocks.flatten))
      (by
        intro p hp
        simp only []
        rw [hRcd p hp, except_ok_bind])
  rw [hcdr, except_ok_bind]
  have hparts := cells_from_data_roundtrip mesh.cells
    (mesh.cell_data.map (fun p => (p.1, p.2.blocks))) hfix hadj hbne
    (by rw [List.map_map]; exact hcdnd)
    (by
      intro p hp
      rw [List.mem_map] at hp
      obtain ⟨q, hq, hqe⟩ := hp
      rw [← hqe]
      exact hcdlen q hq)
    (by
      intro p hp k hk
      rw [List.mem_map] at hp
      obtain ⟨q, hq, hqe⟩ := hp
      rw [← hqe]
      exact hcdrows q hq k hk)
  rw [show (mesh.cell_data.map (fun p => (p.1, p.2.blocks))).map
      (fun p => (p.1, p.2.flatten)) =
      mesh.cell_data.map (fun p => (p.1, p.2.blocks.flatten)) from by
    rw [List.map_map]; rfl] at hparts
  rw [organize_cells_single (write_connectivity mesh.cells)
    (write_offsets 0 mesh.cells) (typesList mesh.cells) _ _ hparts,
    except_ok_bind]
  simp only [map_shiftBlock_zero]
  have hcds : cdState mesh.cells.length
      (mesh.cell_data.map (fun p => (p.1, p.2.blocks))) =
      mesh.cell_data.map (fun p => (p.1, p.2.blocks)) := by
    unfold cdState
    rw [if_neg (by
      intro h
      exact hbne (List.length_eq_zero.mp h))]
    rw [List.map_map]
    apply List.map_congr_left
    intro q hq
    simp only [Function.comp_apply]
    rw [← hcdlen q hq, List.take_length]
  simp only [hcds, List.map_map]
  rw [show (asReadMesh mesh) = ⟨mesh.points,
    mesh.cells.map (fun b => ⟨b.type, b.data⟩), mesh.point_data, mesh.cell_data,
    none⟩ from rfl]
  simp only [Except.ok.injEq, ReadMesh.mk.injEq]
  refine ⟨?_, trivial, trivial, ?_, trivial⟩
  · rw [writeArr_width, writeArr_isFloat]
  · have hfin : ∀ q ∈ mesh.cell_data,
        aGet (mesh.cell_data.map (fun p => (p.1,
          writeArr cfg hw p.2.width p.2.isFloat none p.2.blocks.flatten))) q.1 =
        some (writeArr cfg hw q.2.width q.2.isFloat none q.2.blocks.flatten) := by
      intro q hq
      rw [aGet_map_val mesh.cell_data
        (fun c => writeArr cfg hw c.width c.isFloat none c.blocks.flatten) q.1,
        aGet_of_mem_nodup mesh.cell_data hcdnd q hq]
      rfl
    conv_rhs => rw [← List.map_id' mesh.cell_data]
    apply List.map_congr_left
    intro q hq
    simp only [Function.comp_apply]
    rw [hfin q hq]
    simp only [Option.getD_some, writeArr_width, writeArr_isFloat]
theorem arrOkB_spec (hw w : Nat) (vals : List Int) (h : arrOkB hw w vals = true) :
    0 < w ∧ w ∣ 32768 ∧ arrValsOk w vals = true ∧ vals ≠ [] ∧
      65 * (w * vals.length) < 256 ^ hw := by
  simp only [arrOkB, Bool.and_eq_true, decide_eq_true_eq] at h
  exact ⟨h.1.1.1.1, h.1.1.1.2, h.1.1.2, h.1.2, h.2⟩

/-- Claim C1 amended: for each of the three write configurations of the
model (ascii, uncompressed binary, compressed binary with an abstract
faithful codec standing for zlib/lzma), reading back the document write
produces returns the mesh exactly: the same points, the same cell blocks
(tags, rows and order), the same point data and the same per-name per-block
cell data, with no reserved face-list entry.  The restrictions: every block
is nonempty, rectangular, a fixed shape whose tag round-trips the cell-type
tables; no two adjacent blocks share a type code (else their runs merge on
read, the counterexample); the point count is whole; cell-data names are
distinct and their per-block arrays match the blocks; every array fits its
scalar kind and the header kind's range and is nonempty; and the ascii case
is asserted for integer-kind arrays (the model does not render the lossy
11-significant-digit float format of line 697). -/
theorem claim_C1_amended (hw : Nat) (comp dec : List Nat → List Nat)
    (mesh : MeshM)
    (hdec : ∀ l, dec (comp l) = l)
    (hcb : ∀ l, (∀ x ∈ l, x < 256) → ∀ x ∈ comp l, x < 256)
    (hcs : ∀ l, (comp l).length ≤ l.length + 64)
    (h3 : hw % 3 ≠ 0)
    (hmax : 33000 < 256 ^ hw)
    (hfix : ∀ x ∈ mesh.cells, fixedBlockOk x = true)
    (hadj : adjacentDistinct mesh.cells = true)
    (hbne : mesh.cells ≠ [])
    (hpts3 : mesh.points.vals.length % 3 = 0)
    (hcdnd : (mesh.cell_data.map Prod.fst).Nodup)
    (hcdlen : ∀ p ∈ mesh.cell_data, p.2.blocks.length = mesh.cells.length)
    (hcdrows : ∀ p ∈ mesh.cell_data, ∀ k, k < mesh.cells.length →
      (p.2.blocks.getD k []).length = (mesh.cells.getD k ⟨"", 0, []⟩).data.length)
    (hApts : arrOkB hw mesh.points.width mesh.points.vals = true)
    (hAconn : arrOkB hw 8 (write_connectivity mesh.cells) = true)
    (hAoffs : arrOkB hw 8 (write_offsets 0 mesh.cells) = true)
    (hAtypes : arrOkB hw 8 (typesList mesh.cells) = true)
    (hApd : ∀ p ∈ mesh.point_data, arrOkB hw p.2.width p.2.vals = true)
    (hAcd : ∀ p ∈ mesh.cell_data, arrOkB hw p.2.width p.2.blocks.flatten = true) :
    ((mesh.points.isFloat = false ∧ (∀ p ∈ mesh.point_data, p.2.isFloat = false) ∧
        (∀ p ∈ mesh.cell_data, p.2.isFloat = false)) →
      (writeDoc .asciiC hw mesh).bind (readDoc dec) = .ok (asReadMesh mesh)) ∧
    ((writeDoc .binU hw mesh).bind (readDoc dec) = .ok (asReadMesh mesh)) ∧
    ((writeDoc (.binC comp) hw mesh).bind (readDoc dec) = .ok (asReadMesh mesh)) := by
  obtain ⟨hp1, hp2, hp3, hp4, hp5⟩ := arrOkB_spec _ _ _ hApts
  obtain ⟨hc1, hc2, hc3, hc4, hc5⟩ := arrOkB_spec _ _ _ hAconn
  obtain ⟨ho1, ho2, ho3, ho4, ho5⟩ := arrOkB_spec _ _ _ hAoffs
  obtain ⟨ht1, ht2, ht3, ht4, ht5⟩ := arrOkB_spec _ _ _ hAtypes
  refine ⟨?_, ?_, ?_⟩
  · intro _hint
    exact readDoc_writeDoc .asciiC false hw dec mesh rfl hfix hadj hbne hpts3
      hcdnd hcdlen hcdrows
      (read_data_ascii false hw _ _ _ _ dec)
      (read_data_ascii false hw _ _ _ _ dec)
      (read_data_ascii false hw _ _ _ _ dec)
      (read_data_ascii false hw _ _ _ _ dec)
      (fun p _ => read_data_ascii false hw _ _ _ _ dec)
      (fun p _ => read_data_ascii false hw _ _ _ _ dec)
  · exact readDoc_writeDoc .binU false hw dec mesh rfl hfix hadj hbne hpts3
      hcdnd hcdlen hcdrows
      (read_data_binU hw _ _ _ _ dec h3 hp1 hp3 (by omega))
      (read_data_binU hw _ _ _ _ dec h3 hc1 hc3 (by omega))
      (read_data_binU hw _ _ _ _ dec h3 ho1 ho3 (by omega))
      (read_data_binU hw _ _ _ _ dec h3 ht1 ht3 (by omega))
      (fun p hp => by
        obtain ⟨h1, h2, h3', h4, h5⟩ := arrOkB_spec _ _ _ (hApd p hp)
        exact read_data_binU hw _ _ _ _ dec h3 h1 h3' (by omega))
      (fun p hp => by
        obtain ⟨h1, h2, h3', h4, h5⟩ := arrOkB_spec _ _ _ (hAcd p hp)
        exact read_data_binU hw _ _ _ _ dec h3 h1 h3' (by omega))
  · exact readDoc_writeDoc (.binC comp) true hw dec mesh rfl hfix hadj hbne hpts3
      hcdnd hcdlen hcdrows
      (read_data_binC hw _ _ _ _ comp dec hdec hcb hcs h3 hp1 hp3 hp4 hp2 hp5 hmax)
      (read_data_binC hw _ _ _ _ comp dec hdec hcb hcs h3 hc1 hc3 hc4 hc2 hc5 hmax)
      (read_data_binC hw _ _ _ _ comp dec hdec hcb hcs h3 ho1 ho3 ho4 ho2 ho5 hmax)
      (read_data_binC hw _ _ _ _ comp dec hdec hcb hcs h3 ht1 ht3 ht4 ht2 ht5 hmax)
      (fun p hp => by
        obtain ⟨h1, h2, h3', h4, h5⟩ := arrOkB_spec _ _ _ (hApd p hp)
        exact read_data_binC hw _ _ _ _ comp dec hdec hcb hcs h3 h1 h3' h4 h2 h5 hmax)
      (fun p hp => by
        obtain ⟨h1, h2, h3', h4, h5⟩ := arrOkB_spec _ _ _ (hAcd p hp)
        exact read_data_binC hw _ _ _ _ comp dec hdec hcb hcs h3 h1 h3' h4 h2 h5 hmax)
theorem claim_C1_amended_witness :
    ((writeDoc .asciiC 4 roundTripMesh).bind (readDoc id) =
      .ok (asReadMesh roundTripMesh)) ∧
    ((writeDoc .binU 4 roundTripMesh).bind (readDoc id) =
      .ok (asReadMesh roundTripMesh)) ∧
    ((writeDoc (.binC id) 4 roundTripMesh).bind (readDoc id) =
      .ok (asReadMesh roundTripMesh)) := by
  have h := claim_C1_amended 4 id id roundTripMesh
    (fun l => rfl) (fun l hl => hl) (fun l => Nat.le_add_right _ _)
    (by decide) (by decide)
    (by decide) (by decide) (by decide) (by decide) (by decide)
    (by decide) (by decide)
    (by decide) (by decide) (by decide) (by decide)
    (by decide) (by decide)
  exact ⟨h.1 (by decide), h.2.1, h.2.2⟩
end MeshioVtu
